import Mathlib

/-!
Verification of the fork database (`libraries/chain/fork_database.cpp`).

The development shallowly embeds the fork database template
`fork_database_impl<bsp>` over an abstract block-state record.  Block ids
(32-byte content hashes, compared with `sha256_less` and hashed for the
primary index) are modelled as `Nat`; `uint32_t` quantities are modelled as
`Nat` (the code only stores and compares them, it never does wrapping
arithmetic on them).  The opaque block body, timestamp and header
extensions live in external collaborator types and carry no fork-choice
information; the outcome of the external protocol-feature validator invoked
by `add_impl` is abstracted by a boolean predicate `vpass` on the block
being added.  Loops that the C++ executes without an a-priori bound (the
breadth-first traversal of `remove_impl`, the ancestor walk of
`advance_root_impl`, the branch walks) receive explicit fuel; exhausting the
fuel corresponds to a C++ execution that never terminates, and is reported
with the distinguished marker `Err.fuel`.
-/

namespace ForkDb

/-- Header-state portion of a block state (`bhs` in the source): the fields
that survive the `static_cast<bhs*>` slice used when the root is written to
the fork database file. -/
structure BlockHeaderState where
  id : Nat
  previous : Nat
  block_num : Nat
  irreversible_blocknum : Nat
  deriving DecidableEq, Repr

/-- Block state (`bs` in the source): the header state plus the validity
flag (`is_valid()` / `set_valid()`). -/
structure BlockState where
  id : Nat
  previous : Nat
  block_num : Nat
  irreversible_blocknum : Nat
  valid : Bool
  deriving DecidableEq, Repr

/-- The header-state slice of a block state. -/
def BlockState.toHeaderState (b : BlockState) : BlockHeaderState :=
  ⟨b.id, b.previous, b.block_num, b.irreversible_blocknum⟩

/-- Construction performed by `reset_impl`: a fresh block state whose
header-state portion is copied from `root_bhs` and whose validity flag is
set with `set_valid(true)`. -/
def rootFromHeader (h : BlockHeaderState) : BlockState :=
  ⟨h.id, h.previous, h.block_num, h.irreversible_blocknum, true⟩

/-- The fork-choice order `first_preferred`: strict lexicographic comparison
of `(irreversible_blocknum, block_num)` pairs; validity is not consulted. -/
def first_preferred (lhs rhs : BlockState) : Bool :=
  decide (rhs.irreversible_blocknum < lhs.irreversible_blocknum ∨
    (lhs.irreversible_blocknum = rhs.irreversible_blocknum ∧
      rhs.block_num < lhs.block_num))

/-- Sort key of `std::greater<bool>` in the composite comparator: `true`
sorts before `false`, encoded as the smaller numeric key. -/
def validKey (b : Bool) : Nat := cond b 0 1

/-- Strict order of the `by_lib_block_num` composite index:
`(valid desc, irreversible_blocknum desc, block_num desc, id asc)` via
`composite_key_compare<greater<bool>, greater<u32>, greater<u32>, sha256_less>`. -/
def by_lib_lt (a b : BlockState) : Bool :=
  decide (validKey a.valid < validKey b.valid ∨
    (validKey a.valid = validKey b.valid ∧
      (b.irreversible_blocknum < a.irreversible_blocknum ∨
        (a.irreversible_blocknum = b.irreversible_blocknum ∧
          (b.block_num < a.block_num ∨
            (a.block_num = b.block_num ∧ a.id < b.id))))))

/-- Nonstrict companion of `by_lib_lt`, used to express the sorted view of
the composite index. -/
def by_lib_le (a b : BlockState) : Prop := by_lib_lt b a = false

instance : DecidableRel by_lib_le := fun a b =>
  inferInstanceAs (Decidable (by_lib_lt b a = false))

theorem by_lib_lt_irrefl (a : BlockState) : by_lib_lt a a = false := by
  simp [by_lib_lt]

theorem by_lib_lt_asymm {a b : BlockState} (h : by_lib_lt a b = true) :
    by_lib_lt b a = false := by
  simp only [by_lib_lt, decide_eq_true_eq, decide_eq_false_iff_not] at h ⊢
  omega

theorem by_lib_lt_trans {a b c : BlockState}
    (h₁ : by_lib_lt a b = true) (h₂ : by_lib_lt b c = true) :
    by_lib_lt a c = true := by
  simp only [by_lib_lt, decide_eq_true_eq] at h₁ h₂ ⊢
  omega

theorem by_lib_connex {a b : BlockState}
    (h₁ : by_lib_lt a b = false) (h₂ : by_lib_lt b a = false) :
    a.valid = b.valid ∧ a.irreversible_blocknum = b.irreversible_blocknum ∧
      a.block_num = b.block_num ∧ a.id = b.id := by
  simp only [by_lib_lt, decide_eq_false_iff_not] at h₁ h₂
  have hv : validKey a.valid = validKey b.valid := by omega
  refine ⟨?_, by omega, by omega, by omega⟩
  cases ha : a.valid <;> cases hb : b.valid <;> simp_all [validKey]

instance : IsTotal BlockState by_lib_le :=
  ⟨fun a b => by
    unfold by_lib_le
    rcases hab : by_lib_lt a b with _ | _
    · exact Or.inr rfl
    · exact Or.inl (by_lib_lt_asymm hab)⟩

instance : IsTrans BlockState by_lib_le :=
  ⟨fun a b c hab hbc => by
    unfold by_lib_le at *
    simp only [by_lib_lt, decide_eq_false_iff_not] at hab hbc ⊢
    omega⟩

/-- The `by_lib_block_num` view of the index: its entries in composite-key
order, best entry first. -/
def by_lib_list (index : List BlockState) : List BlockState :=
  List.insertionSort by_lib_le index

/-- First entry of the `by_lib_block_num` view
(`index.get<by_lib_block_num>().begin()`). -/
def by_lib_head (index : List BlockState) : Option BlockState :=
  (by_lib_list index).head?

/-- Entries of the `valid == false` range of the `by_lib_block_num` view,
best first; `indx.lower_bound(false)` points at the head of this range. -/
def by_lib_invalid (index : List BlockState) : List BlockState :=
  (by_lib_list index).filter (fun n => !n.valid)

/-- Error outcomes, one per throw site of the source. `fuel` is not a C++
error: it marks executions in which the corresponding C++ loop would never
terminate. -/
inductive Err where
  | rootNotSet
  | unlinkable
  | duplicate
  | validatorRejected
  | notFound
  | notValidated
  | orphanedBranch
  | wouldRemoveHead
  | badMagic
  | badVersion
  | corruptHead
  | headNotRoot
  | headNotBest
  | fuel
  deriving DecidableEq, Repr

/-- State owned by `fork_database_impl`: `root`, `head` (null shared
pointers modelled as `none`) and the multi-index container, represented by
its list of entries in insertion order.  The container enforces uniqueness
of `id`; the derived views are computed by `by_lib_list` / `children_of`. -/
structure ForkDB where
  root : Option BlockState
  head : Option BlockState
  index : List BlockState
  deriving DecidableEq, Repr

/-- Lookup in the primary (by id) index only; the root is never consulted. -/
def get_block_impl (s : ForkDB) (id : Nat) : Option BlockState :=
  s.index.find? (fun n => n.id == id)

/-- Lookup that first compares against the root, then falls back to the
index.  The C++ dereferences `root` unconditionally; calling it with a null
root is undefined behaviour there and yields `none` here. -/
def get_block_header_impl (s : ForkDB) (id : Nat) : Option BlockState :=
  match s.root with
  | none => none
  | some r => if r.id = id then some r else get_block_impl s id

/-- Implementation of `reset_impl`: clear the index, build a fresh root from
the header state with `set_valid(true)`, and point `head` at it.  The result
does not depend on the previous state. -/
def reset_impl (root_bhs : BlockHeaderState) : ForkDB :=
  let r := rootFromHeader root_bhs
  { root := some r, head := some r, index := [] }

/-- Implementation of `add_impl`.  The external protocol-feature validation
step (invoked only when `validate` is set) is abstracted by `vpass`: it
holds exactly when the block either carries no protocol-feature-activation
extension or the external validator accepts it.  The C++ also asserts that
the inserted shared pointer is non-null, which the value-level model cannot
violate. -/
def add_impl (s : ForkDB) (n : BlockState) (ignore_duplicate validate : Bool)
    (vpass : BlockState → Bool) : ForkDB × Option Err :=
  match s.root with
  | none => (s, some .rootNotSet)
  | some _ =>
    match get_block_header_impl s n.previous with
    | none => (s, some .unlinkable)
    | some _ =>
      if validate && !(vpass n) then (s, some .validatorRejected)
      else if s.index.any (fun m => m.id == n.id) then
        if ignore_duplicate then (s, none) else (s, some .duplicate)
      else
        let s' : ForkDB := { s with index := s.index ++ [n] }
        match by_lib_head s'.index with
        | some c => if c.valid then ({ s' with head := some c }, none) else (s', none)
        | none => (s', none)

/-- The public `fork_database_t::add`: forwards to `add_impl` with
`validate = false` and a no-op validator. -/
def fork_database_add (s : ForkDB) (n : BlockState) (ignore_duplicate : Bool) :
    ForkDB × Option Err :=
  add_impl s n ignore_duplicate false (fun _ => true)

/-- Implementation of `mark_valid_impl`.  The caller's handle `h` is checked
for validity first; the entry is then located by id and its flag flipped
through the container, after which the head candidate is re-examined.  The
C++ dereferences `head` in the candidate comparison; with a null head that
is undefined behaviour and the model leaves the head unchanged. -/
def mark_valid_impl (s : ForkDB) (h : BlockState) : ForkDB × Option Err :=
  if h.valid then (s, none)
  else
    match s.index.find? (fun m => m.id == h.id) with
    | none => (s, some .notFound)
    | some _ =>
      let index' := s.index.map (fun m => if m.id = h.id then { m with valid := true } else m)
      let s' : ForkDB := { s with index := index' }
      match by_lib_head index', s.head with
      | some c, some hd =>
        if first_preferred c hd then ({ s' with head := some c }, none) else (s', none)
      | _, _ => (s', none)

/-- Implementation of `rollback_head_to_root_impl`: clear the validity flag
of every index entry and reset `head` to `root`. -/
def rollback_head_to_root_impl (s : ForkDB) : ForkDB :=
  { s with index := s.index.map (fun m => { m with valid := false }), head := s.root }

/-- Immediate children of `pid` in the `by_prev` view: the ids of the index
entries whose `previous` equals `pid`. -/
def children_of (index : List BlockState) (pid : Nat) : List Nat :=
  (index.filter (fun n => n.previous == pid)).map (fun n => n.id)

/-- The enumeration loop of `remove_impl`: a FIFO queue seeded with the
requested id; each processed element is checked against the head id and its
children are appended.  `acc` holds the processed prefix of the C++
`remove_queue`, `pending` the rest. -/
def bfs_collect (index : List BlockState) (headId : Nat) :
    Nat → List Nat → List Nat → Except Err (List Nat)
  | 0, _, _ => .error .fuel
  | _ + 1, acc, [] => .ok acc
  | fuel + 1, acc, q :: pending =>
    if q = headId then .error .wouldRemoveHead
    else bfs_collect index headId fuel (acc ++ [q]) (pending ++ children_of index q)

/-- Implementation of `remove_impl`: enumerate the subtree breadth-first,
failing before any mutation if the head is encountered, then erase every
enumerated id.  The C++ dereferences `head` unconditionally; with a null
head that is undefined behaviour, modelled as an error. -/
def remove_impl (s : ForkDB) (id : Nat) : ForkDB × Option Err :=
  match s.head with
  | none => (s, some .rootNotSet)
  | some hd =>
    match bfs_collect s.index hd.id (s.index.length + 2) [] [id] with
    | .error e => (s, some e)
    | .ok ids => ({ s with index := s.index.filter (fun n => !(ids.contains n.id)) }, none)

/-- The ancestor walk of `advance_root_impl`: starting from the new root,
push each `previous` id and follow it through the index; the walk must end
on the old root's id, otherwise an orphaned branch is reported. -/
def collect_ancestors (s : ForkDB) (rootId : Nat) :
    Nat → BlockState → List Nat → Except Err (List Nat)
  | 0, _, _ => .error .fuel
  | fuel + 1, b, acc =>
    match get_block_impl s b.previous with
    | some b' => collect_ancestors s rootId fuel b' (acc ++ [b.previous])
    | none =>
      if b.previous = rootId then .ok (acc ++ [b.previous]) else .error .orphanedBranch

/-- The pruning loop of `advance_root_impl`: `remove_impl` applied to each
collected ancestor id in turn; a failure propagates, keeping the state the
failing call left behind. -/
def remove_loop (s : ForkDB) : List Nat → ForkDB × Option Err
  | [] => (s, none)
  | i :: rest =>
    match remove_impl s i with
    | (s', none) => remove_loop s' rest
    | (s', some e) => (s', some e)

/-- Implementation of `advance_root_impl`: check the new root exists and is
validated, collect the ancestor chain up to the old root, erase the new
root individually (so its own children survive), prune every collected
ancestor with `remove_impl`, and finally replace `root` without mutating
the new root node. -/
def advance_root_impl (s : ForkDB) (id : Nat) : ForkDB × Option Err :=
  match s.root with
  | none => (s, some .rootNotSet)
  | some r =>
    match get_block_impl s id with
    | none => (s, some .notFound)
    | some new_root =>
      if new_root.valid = false then (s, some .notValidated)
      else
        match collect_ancestors s r.id (s.index.length + 1) new_root [] with
        | .error e => (s, some e)
        | .ok blocks_to_remove =>
          let s₁ : ForkDB := { s with index := s.index.filter (fun n => !(n.id == id)) }
          match remove_loop s₁ blocks_to_remove with
          | (s₂, none) => ({ s₂ with root := some new_root }, none)
          | (s₂, some e) => (s₂, some e)

/-- Implementation of `fork_database_t::pending_head`: look at the first
entry of the `valid == false` range of the composite index and prefer it
over the current head when `first_preferred` says so. -/
def pending_head_impl (s : ForkDB) : Option BlockState :=
  match (by_lib_invalid s.index).head?, s.head with
  | some c, some hd => if !c.valid && first_preferred c hd then some c else some hd
  | _, _ => s.head

/-- The walk of `fetch_branch_impl`: follow `previous` through the index
from `h`, collecting the nodes whose `block_num` does not exceed the trim
bound, until the lookup fails. -/
def fetch_branch_go (s : ForkDB) (trim : Nat) :
    Nat → Option BlockState → List BlockState → List BlockState × Option Err
  | _, none, acc => (acc, none)
  | 0, some _, acc => (acc, some .fuel)
  | fuel + 1, some b, acc =>
    fetch_branch_go s trim fuel (get_block_impl s b.previous)
      (if b.block_num ≤ trim then acc ++ [b] else acc)

/-- Implementation of `fetch_branch_impl`. -/
def fetch_branch_impl (s : ForkDB) (h : Nat) (trim_after_block_num : Nat) :
    List BlockState × Option Err :=
  fetch_branch_go s trim_after_block_num (s.index.length + 1) (get_block_impl s h) []

/-- Tip resolution in `fetch_branch_from_impl`: the root is compared first,
then the index is consulted. -/
def resolve_tip (s : ForkDB) (r : BlockState) (id : Nat) : Option BlockState :=
  if id = r.id then some r else get_block_impl s id

/-- One of the two alignment loops of `fetch_branch_from_impl`: while the
walker's `block_num` exceeds `target`, push it and step to its parent
(resolving the root as well as index entries). -/
def descend_to (s : ForkDB) (r : BlockState) (target : Nat) :
    Nat → BlockState → List BlockState → Except Err (BlockState × List BlockState)
  | 0, b, acc => if target < b.block_num then .error .fuel else .ok (b, acc)
  | fuel + 1, b, acc =>
    if target < b.block_num then
      match (if b.previous = r.id then some r else get_block_impl s b.previous) with
      | some b' => descend_to s r target fuel b' (acc ++ [b])
      | none => .error .notFound
    else .ok (b, acc)

/-- The common-parent loop of `fetch_branch_from_impl`: while the two
walkers have different `previous` ids, push both and step both to their
parents, which are looked up in the index only. -/
def climb_both (s : ForkDB) :
    Nat → BlockState → BlockState → List BlockState → List BlockState →
    Except Err (BlockState × BlockState × List BlockState × List BlockState)
  | 0, a, b, acc₁, acc₂ =>
    if a.previous = b.previous then .ok (a, b, acc₁, acc₂) else .error .fuel
  | fuel + 1, a, b, acc₁, acc₂ =>
    if a.previous = b.previous then .ok (a, b, acc₁, acc₂)
    else
      match get_block_impl s a.previous, get_block_impl s b.previous with
      | some a', some b' => climb_both s fuel a' b' (acc₁ ++ [a]) (acc₂ ++ [b])
      | _, _ => .error .notFound

/-- Implementation of `fetch_branch_from_impl`.  The C++ dereferences
`root` when resolving the tips; with a null root that is undefined
behaviour, modelled as an error. -/
def fetch_branch_from_impl (s : ForkDB) (first second : Nat) :
    Except Err (List BlockState × List BlockState) :=
  match s.root with
  | none => .error .rootNotSet
  | some r =>
    match resolve_tip s r first, resolve_tip s r second with
    | none, _ => .error .notFound
    | some _, none => .error .notFound
    | some fb, some sb =>
      match descend_to s r sb.block_num (s.index.length + 1) fb [] with
      | .error e => .error e
      | .ok (fb₁, res₁) =>
        match descend_to s r fb₁.block_num (s.index.length + 1) sb [] with
        | .error e => .error e
        | .ok (sb₁, res₂) =>
          if fb₁.id = sb₁.id then .ok (res₁, res₂)
          else
            match climb_both s (s.index.length + 1) fb₁ sb₁ res₁ res₂ with
            | .error e => .error e
            | .ok (fb₂, sb₂, res₁', res₂') => .ok (res₁' ++ [fb₂], res₂' ++ [sb₂])

/-- Contents of the fork database file.  The byte-level framing (varuint
count, raw packing) belongs to the external serialization facility; the
file is modelled by its parsed fields.  A missing `head_id` corresponds to
the corrupted file the C++ writes when `head` is null. -/
structure ForkFile where
  magic : Nat
  version : Nat
  root : BlockHeaderState
  blocks : List BlockState
  head_id : Option Nat
  deriving DecidableEq, Repr

/-- Supported persistence format versions.  Modelled from the spec: the
constants `min_supported_version` and `max_supported_version` are declared
in `fork_database.hpp`, which is not among the sources; the spec fixes
version 1 as the only version. -/
def min_supported_version : Nat := 1

/-- Maximum supported persistence format version; see
`min_supported_version`. -/
def max_supported_version : Nat := 1

/-- Steps of the write-order merge of `close_impl`; the fuel equals the
number of elements still to be written (every step writes exactly one), so
the `0` case is reached exactly when both streams are exhausted. -/
def close_merge_go : Nat → List BlockState → List BlockState → List BlockState
  | 0, _, _ => []
  | fuel + 1, [], [] => close_merge_go fuel [] []
  | fuel + 1, [], u :: us => u :: close_merge_go fuel [] us
  | fuel + 1, v :: vs, [] => v :: close_merge_go fuel vs []
  | fuel + 1, v :: vs, u :: us =>
    if first_preferred v u then u :: close_merge_go fuel (v :: vs) us
    else v :: close_merge_go fuel vs (u :: us)

/-- The write-order merge of `close_impl`: two reverse iterators over the
composite index, one over the `valid == true` range and one over the
`valid == false` range; when both streams are nonempty, the unvalidated
front is emitted exactly when the validated front is more
`first_preferred`. -/
def close_merge (vs us : List BlockState) : List BlockState :=
  close_merge_go (vs.length + us.length) vs us

/-- Implementation of `close_impl`: with no root nothing is written (a
corruption warning is logged when the index is nonempty); otherwise the
file receives the magic, the current version, the root's header state, the
merged index entries and the head id, and the index is cleared.  `head` and
`root` are left untouched. -/
def close_impl (s : ForkDB) (magic : Nat) : Option ForkFile × ForkDB :=
  match s.root with
  | none => (none, s)
  | some r =>
    let sorted := by_lib_list s.index
    let validated := (sorted.filter (fun n => n.valid)).reverse
    let unvalidated := (sorted.filter (fun n => !n.valid)).reverse
    let f : ForkFile :=
      { magic := magic
        version := max_supported_version
        root := r.toHeaderState
        blocks := close_merge validated unvalidated
        head_id := s.head.map (fun h => h.id) }
    (some f, { s with index := [] })

/-- The reconstruction loop of `open_impl`: each deserialized block state is
added with `ignore_duplicate = false` and `validate = true`. -/
def add_loop (s : ForkDB) (vpass : BlockState → Bool) :
    List BlockState → ForkDB × Option Err
  | [] => (s, none)
  | n :: rest =>
    match add_impl s n false true vpass with
    | (s', none) => add_loop s' vpass rest
    | (s', some e) => (s', some e)

/-- Implementation of `open_impl` on an existing file (a missing file leaves
the state untouched): check magic and version, `reset_impl` on the stored
root header state, re-add every stored block, resolve the stored head id
(the root is compared first), and verify that the head is the best
available option.  Error states are the states the C++ leaves behind when
the corresponding assertion throws; in particular a head id that resolves
nowhere leaves a null head. -/
def open_impl (s : ForkDB) (file : Option ForkFile) (magic : Nat)
    (vpass : BlockState → Bool) : ForkDB × Option Err :=
  match file with
  | none => (s, none)
  | some f =>
    if f.magic ≠ magic then (s, some .badMagic)
    else if f.version < min_supported_version ∨ max_supported_version < f.version then
      (s, some .badVersion)
    else
      let rootNode := rootFromHeader f.root
      let s₀ : ForkDB := { root := some rootNode, head := some rootNode, index := [] }
      match add_loop s₀ vpass f.blocks with
      | (s₁, some e) => (s₁, some e)
      | (s₁, none) =>
        match f.head_id with
        | none => ({ s₁ with head := none }, some .corruptHead)
        | some head_id =>
          match (if rootNode.id = head_id then some rootNode else get_block_impl s₁ head_id) with
          | none => ({ s₁ with head := none }, some .corruptHead)
          | some h =>
            let s₂ : ForkDB := { s₁ with head := some h }
            match by_lib_head s₂.index with
            | none => if h.id = rootNode.id then (s₂, none) else (s₂, some .headNotRoot)
            | some c =>
              if c.valid = false then
                if h.id = rootNode.id then (s₂, none) else (s₂, some .headNotRoot)
              else if first_preferred c h then (s₂, some .headNotBest)
              else (s₂, none)

/-- States reachable by sequences of fork database operations starting from
a `reset`.  Each operation contributes the state it leaves behind, whether
or not it reports an error, matching the C++ exception behaviour; the
`Err.fuel` outcomes are excluded because they correspond to C++ executions
that never return.  `open` consumes a file previously written by `close`
(the only producer of fork database files in the documented crash model). -/
inductive Reachable : ForkDB → Prop where
  | reset (root_bhs : BlockHeaderState) : Reachable (reset_impl root_bhs)
  | add (s : ForkDB) (n : BlockState) (ignore_duplicate : Bool) :
      Reachable s → Reachable (fork_database_add s n ignore_duplicate).1
  | mark_valid (s : ForkDB) (h : BlockState) :
      Reachable s → Reachable (mark_valid_impl s h).1
  | rollback (s : ForkDB) : Reachable s → Reachable (rollback_head_to_root_impl s)
  | advance_root (s : ForkDB) (id : Nat) : Reachable s →
      (advance_root_impl s id).2 ≠ some .fuel → Reachable (advance_root_impl s id).1
  | remove (s : ForkDB) (id : Nat) : Reachable s →
      (remove_impl s id).2 ≠ some .fuel → Reachable (remove_impl s id).1
  | open_file (s src : ForkDB) (magic : Nat) (vpass : BlockState → Bool) :
      Reachable s → Reachable src →
      Reachable (open_impl s (close_impl src magic).1 magic vpass).1

/-! ### Elementary facts about the sorted views -/

theorem by_lib_le_refl (a : BlockState) : by_lib_le a a := by_lib_lt_irrefl a

theorem by_lib_list_perm (l : List BlockState) : List.Perm (by_lib_list l) l :=
  List.perm_insertionSort by_lib_le l

theorem mem_by_lib_list {l : List BlockState} {x : BlockState} :
    x ∈ by_lib_list l ↔ x ∈ l :=
  List.mem_insertionSort by_lib_le

theorem by_lib_list_sorted (l : List BlockState) :
    List.Sorted by_lib_le (by_lib_list l) :=
  List.sorted_insertionSort by_lib_le l

theorem by_lib_head_mem {l : List BlockState} {c : BlockState}
    (h : by_lib_head l = some c) : c ∈ l := by
  unfold by_lib_head at h
  cases hl : by_lib_list l with
  | nil => rw [hl] at h; simp at h
  | cons x xs =>
    rw [hl] at h
    simp only [List.head?_cons, Option.some.injEq] at h
    subst h
    exact mem_by_lib_list.mp (by rw [hl]; exact List.mem_cons_self x xs)

theorem by_lib_head_min {l : List BlockState} {c : BlockState}
    (h : by_lib_head l = some c) : ∀ x ∈ l, by_lib_le c x := by
  intro x hx
  unfold by_lib_head at h
  cases hl : by_lib_list l with
  | nil => exact absurd (mem_by_lib_list.mpr hx) (by rw [hl]; simp)
  | cons y ys =>
    rw [hl] at h
    simp only [List.head?_cons, Option.some.injEq] at h
    subst h
    have hs := by_lib_list_sorted l
    rw [hl] at hs
    rcases List.mem_cons.mp (by rw [← hl]; exact mem_by_lib_list.mpr hx) with h' | h'
    · subst h'; exact by_lib_le_refl x
    · exact (List.sorted_cons.mp hs).1 x h'

theorem by_lib_head_none {l : List BlockState} (h : by_lib_head l = none) :
    l = [] := by
  unfold by_lib_head at h
  cases hl : by_lib_list l with
  | nil =>
    have hp := by_lib_list_perm l
    rw [hl] at hp
    exact hp.symm.eq_nil
  | cons y ys => rw [hl] at h; simp at h

/-- For two nodes of equal validity, `first_preferred` implies the strict
composite order. -/
theorem by_lib_lt_of_fp {x c : BlockState} (hv : x.valid = c.valid)
    (hfp : first_preferred x c = true) : by_lib_lt x c = true := by
  simp only [first_preferred, decide_eq_true_eq] at hfp
  simp only [by_lib_lt, decide_eq_true_eq, hv]
  rcases hfp with h | h
  · exact Or.inr ⟨trivial, Or.inl h⟩
  · exact Or.inr ⟨trivial, Or.inr ⟨h.1, Or.inl h.2⟩⟩

/-- A valid node is strictly before an invalid one in the composite order. -/
theorem by_lib_lt_of_valid_invalid {x c : BlockState} (hx : x.valid = true)
    (hc : c.valid = false) : by_lib_lt x c = true := by
  simp [by_lib_lt, validKey, hx, hc]

/-- A minimal entry of the composite order that is invalid forces every
entry to be invalid (valid entries sort strictly first). -/
theorem all_invalid_of_min_invalid {l : List BlockState} {c : BlockState}
    (h : by_lib_head l = some c) (hc : c.valid = false) :
    ∀ x ∈ l, x.valid = false := by
  intro x hx
  have hle := by_lib_head_min h x hx
  unfold by_lib_le at hle
  cases hv : x.valid with
  | false => rfl
  | true => rw [by_lib_lt_of_valid_invalid hv hc] at hle; exact absurd hle (by simp)

/-- A valid entry that is at least as preferred as the composite minimum
cannot be strictly less preferred than any valid entry of the list. -/
theorem fp_false_of_min {l : List BlockState} {c x : BlockState}
    (h : by_lib_head l = some c) (hx : x ∈ l) (hxv : x.valid = true)
    (hcv : c.valid = true) : first_preferred x c = false := by
  have hle := by_lib_head_min h x hx
  unfold by_lib_le at hle
  cases hfp : first_preferred x c with
  | false => rfl
  | true => rw [by_lib_lt_of_fp (hxv.trans hcv.symm) hfp] at hle; exact absurd hle (by simp)

/-! ### Claim C10 -/

/-- Claim C10: with the root set and ids unique across the tree,
`get_block` on the root id returns null (it searches only the index),
`get_block_header` on the root id returns the root, and an id that occurs
neither as the root nor in the index yields null from both lookups. -/
theorem get_block_root_spec (s : ForkDB) (r : BlockState)
    (hroot : s.root = some r)
    (hids : ∀ n ∈ s.index, n.id ≠ r.id) :
    get_block_impl s r.id = none ∧
    get_block_header_impl s r.id = some r ∧
    (∀ i, (∀ n ∈ s.index, n.id ≠ i) → i ≠ r.id →
      get_block_impl s i = none ∧ get_block_header_impl s i = none) := by
  refine ⟨?_, ?_, ?_⟩
  · unfold get_block_impl
    rw [List.find?_eq_none]
    intro n hn
    simpa using hids n hn
  · unfold get_block_header_impl
    rw [hroot]
    simp
  · intro i hni hir
    have hgb : get_block_impl s i = none := by
      unfold get_block_impl
      rw [List.find?_eq_none]
      intro n hn
      simpa using hni n hn
    refine ⟨hgb, ?_⟩
    have hne : ¬ (r.id = i) := fun hc => hir hc.symm
    simp only [get_block_header_impl, hroot, if_neg hne]
    exact hgb

/-- Witness for `get_block_root_spec` at a concrete two-node tree. -/
theorem get_block_root_spec_witness :
    get_block_impl ⟨some ⟨0, 0, 0, 0, true⟩, some ⟨0, 0, 0, 0, true⟩,
      [⟨1, 0, 1, 0, false⟩]⟩ 0 = none ∧
    get_block_header_impl ⟨some ⟨0, 0, 0, 0, true⟩, some ⟨0, 0, 0, 0, true⟩,
      [⟨1, 0, 1, 0, false⟩]⟩ 0 = some ⟨0, 0, 0, 0, true⟩ ∧
    (get_block_impl ⟨some ⟨0, 0, 0, 0, true⟩, some ⟨0, 0, 0, 0, true⟩,
      [⟨1, 0, 1, 0, false⟩]⟩ 5 = none ∧
     get_block_header_impl ⟨some ⟨0, 0, 0, 0, true⟩, some ⟨0, 0, 0, 0, true⟩,
      [⟨1, 0, 1, 0, false⟩]⟩ 5 = none) := by
  have h := get_block_root_spec
    ⟨some ⟨0, 0, 0, 0, true⟩, some ⟨0, 0, 0, 0, true⟩, [⟨1, 0, 1, 0, false⟩]⟩
    ⟨0, 0, 0, 0, true⟩ rfl (by decide)
  exact ⟨h.1, h.2.1, h.2.2 5 (by decide) (by decide)⟩

/-! ### Claim C2 -/

/-- Claim C2 (amended): `pending_head` is determined by the first entry `c`
of the `valid == false` range of the `by_lib_block_num` index (the entry
`lower_bound(false)` points at), not by the overall first entry of the
index: when that range is nonempty `pending_head` returns its first entry
`c` if `first_preferred(c, head)` holds and `head` otherwise, and with no
invalid entry it returns `head`. -/
theorem pending_head_spec (s : ForkDB) (hd : BlockState) (hh : s.head = some hd) :
    (∀ c, (by_lib_invalid s.index).head? = some c →
      pending_head_impl s =
        (if first_preferred c hd = true then some c else some hd)) ∧
    ((by_lib_invalid s.index).head? = none → pending_head_impl s = some hd) := by
  constructor
  · intro c hc
    have hcmem : c ∈ by_lib_invalid s.index := by
      cases hl : (by_lib_invalid s.index) with
      | nil => rw [hl] at hc; simp at hc
      | cons x xs =>
        rw [hl] at hc
        simp only [List.head?_cons, Option.some.injEq] at hc
        rw [← hc]
        exact List.mem_cons_self x xs
    have hcv : c.valid = false := by
      unfold by_lib_invalid at hcmem
      have := List.of_mem_filter hcmem
      simpa using this
    unfold pending_head_impl
    rw [hc, hh]
    simp [hcv]
  · intro hnone
    unfold pending_head_impl
    rw [hnone, hh]

/-- Witness for `pending_head_spec`: a tree with one valid head and a more
preferred invalid candidate. -/
theorem pending_head_spec_witness :
    pending_head_impl ⟨some ⟨0, 0, 0, 0, true⟩, some ⟨1, 0, 1, 0, true⟩,
      [⟨1, 0, 1, 0, true⟩, ⟨2, 1, 2, 0, false⟩]⟩ = some ⟨2, 1, 2, 0, false⟩ := by
  have h := (pending_head_spec
    ⟨some ⟨0, 0, 0, 0, true⟩, some ⟨1, 0, 1, 0, true⟩,
      [⟨1, 0, 1, 0, true⟩, ⟨2, 1, 2, 0, false⟩]⟩ ⟨1, 0, 1, 0, true⟩ rfl).1
    ⟨2, 1, 2, 0, false⟩ (by decide)
  rw [h]
  decide

/-- Counterexample to claim C2 as stated: in this tree the first entry of
the whole `by_lib_block_num` index is the valid head itself, so the claim
requires `pending_head()` to return `head`; the code instead inspects the
first entry of the `valid == false` range and returns the preferred
invalid node. -/
theorem pending_head_claim_counterexample :
    ¬ (∀ (s : ForkDB),
        ∀ c, by_lib_head s.index = some c →
          pending_head_impl s =
            (if c.valid = false ∧ first_preferred c (s.head.getD c) = true
             then some c else s.head)) := by
  intro hclaim
  have := hclaim
    ⟨some ⟨0, 0, 0, 0, true⟩, some ⟨1, 0, 1, 0, true⟩,
      [⟨1, 0, 1, 0, true⟩, ⟨2, 1, 2, 0, false⟩]⟩
    ⟨1, 0, 1, 0, true⟩ (by decide)
  revert this
  decide

/-! ### Error paths leave the state unchanged (helper lemmas) -/

theorem add_impl_state_or_ok (s : ForkDB) (n : BlockState) (idup val : Bool)
    (vp : BlockState → Bool) :
    (add_impl s n idup val vp).1 = s ∨ (add_impl s n idup val vp).2 = none := by
  unfold add_impl
  split
  · exact Or.inl rfl
  · split
    · exact Or.inl rfl
    · split
      · exact Or.inl rfl
      · split
        · split
          · exact Or.inl rfl
          · exact Or.inl rfl
        · dsimp only
          split
          · split
            · exact Or.inr rfl
            · exact Or.inr rfl
          · exact Or.inr rfl

theorem mark_valid_state_or_ok (s : ForkDB) (h : BlockState) :
    (mark_valid_impl s h).1 = s ∨ (mark_valid_impl s h).2 = none := by
  unfold mark_valid_impl
  split
  · exact Or.inl rfl
  · split
    · exact Or.inl rfl
    · dsimp only
      split
      · split
        · exact Or.inr rfl
        · exact Or.inr rfl
      · exact Or.inr rfl

theorem remove_state_or_ok (s : ForkDB) (i : Nat) :
    (remove_impl s i).1 = s ∨ (remove_impl s i).2 = none := by
  unfold remove_impl
  split
  · exact Or.inl rfl
  · split
    · exact Or.inl rfl
    · exact Or.inr rfl

/-! ### Claim C5 -/

/-- Claim C5 (amended): a failed `add`, `mark_valid` or `remove` leaves
`{root, index, head}` entirely unchanged, hence structurally invariant; a
failed `advance_root` is excluded, because it can leave the directly erased
new root's children in the index without a resolvable parent (see the
counterexample). -/
theorem failed_ops_leave_state_unchanged (s : ForkDB) :
    (∀ n idup e, (fork_database_add s n idup).2 = some e →
      (fork_database_add s n idup).1 = s) ∧
    (∀ h e, (mark_valid_impl s h).2 = some e → (mark_valid_impl s h).1 = s) ∧
    (∀ i e, (remove_impl s i).2 = some e → (remove_impl s i).1 = s) := by
  refine ⟨?_, ?_, ?_⟩
  · intro n idup e he
    rcases add_impl_state_or_ok s n idup false (fun _ => true) with h | h
    · exact h
    · exact absurd (h.symm.trans he) (by simp)
  · intro hb e he
    rcases mark_valid_state_or_ok s hb with h | h
    · exact h
    · exact absurd (h.symm.trans he) (by simp)
  · intro i e he
    rcases remove_state_or_ok s i with h | h
    · exact h
    · exact absurd (h.symm.trans he) (by simp)

/-- Witness for `failed_ops_leave_state_unchanged`: a concrete failing
`remove` that leaves the tree unchanged. -/
theorem failed_ops_leave_state_unchanged_witness :
    (remove_impl ⟨some ⟨0, 0, 0, 0, true⟩, some ⟨1, 0, 1, 0, true⟩,
        [⟨1, 0, 1, 0, true⟩]⟩ 0).2 = some Err.wouldRemoveHead ∧
    (remove_impl ⟨some ⟨0, 0, 0, 0, true⟩, some ⟨1, 0, 1, 0, true⟩,
        [⟨1, 0, 1, 0, true⟩]⟩ 0).1 =
      ⟨some ⟨0, 0, 0, 0, true⟩, some ⟨1, 0, 1, 0, true⟩, [⟨1, 0, 1, 0, true⟩]⟩ :=
  ⟨by decide,
   (failed_ops_leave_state_unchanged
      ⟨some ⟨0, 0, 0, 0, true⟩, some ⟨1, 0, 1, 0, true⟩,
        [⟨1, 0, 1, 0, true⟩]⟩).2.2 0 Err.wouldRemoveHead (by decide)⟩

/-- Counterexample to claim C5 as stated: a failed `advance_root` (run
after a concrete sequence of successful operations from `reset`) reports
`wouldRemoveHead` but has already erased the requested new root from the
index, leaving its child with a `previous` id that resolves neither to the
root nor to any index entry. -/
theorem advance_root_error_breaks_invariant :
    (advance_root_impl
        (mark_valid_impl
          (mark_valid_impl
            (fork_database_add
              (fork_database_add
                (fork_database_add (reset_impl ⟨0, 0, 0, 0⟩)
                  ⟨1, 0, 1, 0, false⟩ false).1
                ⟨2, 0, 1, 0, false⟩ false).1
              ⟨3, 2, 2, 0, false⟩ false).1
            ⟨1, 0, 1, 0, false⟩).1
          ⟨2, 0, 1, 0, false⟩).1 2).2 = some Err.wouldRemoveHead ∧
    (⟨3, 2, 2, 0, false⟩ : BlockState) ∈
      (advance_root_impl
        (mark_valid_impl
          (mark_valid_impl
            (fork_database_add
              (fork_database_add
                (fork_database_add (reset_impl ⟨0, 0, 0, 0⟩)
                  ⟨1, 0, 1, 0, false⟩ false).1
                ⟨2, 0, 1, 0, false⟩ false).1
              ⟨3, 2, 2, 0, false⟩ false).1
            ⟨1, 0, 1, 0, false⟩).1
          ⟨2, 0, 1, 0, false⟩).1 2).1.index ∧
    (advance_root_impl
        (mark_valid_impl
          (mark_valid_impl
            (fork_database_add
              (fork_database_add
                (fork_database_add (reset_impl ⟨0, 0, 0, 0⟩)
                  ⟨1, 0, 1, 0, false⟩ false).1
                ⟨2, 0, 1, 0, false⟩ false).1
              ⟨3, 2, 2, 0, false⟩ false).1
            ⟨1, 0, 1, 0, false⟩).1
          ⟨2, 0, 1, 0, false⟩).1 2).1.root = some ⟨0, 0, 0, 0, true⟩ ∧
    (∀ n ∈ (advance_root_impl
        (mark_valid_impl
          (mark_valid_impl
            (fork_database_add
              (fork_database_add
                (fork_database_add (reset_impl ⟨0, 0, 0, 0⟩)
                  ⟨1, 0, 1, 0, false⟩ false).1
                ⟨2, 0, 1, 0, false⟩ false).1
              ⟨3, 2, 2, 0, false⟩ false).1
            ⟨1, 0, 1, 0, false⟩).1
          ⟨2, 0, 1, 0, false⟩).1 2).1.index, n.id ≠ 2) := by decide

/-! ### Counterexamples for claims C1, C3, C6, C7 -/

/-- Counterexample to claim C1 as stated: after a `close` (included in the
claim's operation list) the index is empty — so no valid node exists in it
— while `head` still points at the previously best node, which differs from
`root`. -/
theorem close_breaks_head_root_invariant :
    (∀ n ∈ ((close_impl
        (mark_valid_impl
          (fork_database_add (reset_impl ⟨0, 0, 0, 0⟩) ⟨1, 0, 1, 0, false⟩ false).1
          ⟨1, 0, 1, 0, false⟩).1 7).2).index, n.valid = false) ∧
    ((close_impl
        (mark_valid_impl
          (fork_database_add (reset_impl ⟨0, 0, 0, 0⟩) ⟨1, 0, 1, 0, false⟩ false).1
          ⟨1, 0, 1, 0, false⟩).1 7).2).head = some ⟨1, 0, 1, 0, true⟩ ∧
    ((close_impl
        (mark_valid_impl
          (fork_database_add (reset_impl ⟨0, 0, 0, 0⟩) ⟨1, 0, 1, 0, false⟩ false).1
          ⟨1, 0, 1, 0, false⟩).1 7).2).root = some ⟨0, 0, 0, 0, true⟩ ∧
    some (⟨1, 0, 1, 0, true⟩ : BlockState) ≠ some (⟨0, 0, 0, 0, true⟩ : BlockState) := by
  decide

/-- Counterexample to claim C3 as stated: closing a two-node fully valid
chain writes the lower block first, so for the adjacent written pair
`(a, b)` neither `a.valid ∧ ¬ b.valid` nor `first_preferred(a, b)` holds —
the write order is ascending, not descending with valid entries first. -/
theorem close_order_claim_counterexample :
    (close_impl ⟨some ⟨0, 0, 0, 0, true⟩, some ⟨2, 1, 2, 0, true⟩,
        [⟨1, 0, 1, 0, true⟩, ⟨2, 1, 2, 0, true⟩]⟩ 7).1 =
      some ⟨7, 1, ⟨0, 0, 0, 0⟩,
        [⟨1, 0, 1, 0, true⟩, ⟨2, 1, 2, 0, true⟩], some 2⟩ ∧
    ¬ (((⟨1, 0, 1, 0, true⟩ : BlockState).valid = true ∧
        (⟨2, 1, 2, 0, true⟩ : BlockState).valid = false) ∨
       first_preferred ⟨1, 0, 1, 0, true⟩ ⟨2, 1, 2, 0, true⟩ = true) := by decide

/-- Counterexample to claim C6 as stated: the id `0` is absent from the
index and differs from the head id `1`, yet `remove(0)` fails with
`wouldRemoveHead` (the id is the root's id, whose children are enumerated),
instead of succeeding while removing nothing. -/
theorem remove_absent_id_counterexample :
    (∀ n ∈ (mark_valid_impl
        (fork_database_add (reset_impl ⟨0, 0, 0, 0⟩) ⟨1, 0, 1, 0, false⟩ false).1
        ⟨1, 0, 1, 0, false⟩).1.index, n.id ≠ 0) ∧
    (mark_valid_impl
        (fork_database_add (reset_impl ⟨0, 0, 0, 0⟩) ⟨1, 0, 1, 0, false⟩ false).1
        ⟨1, 0, 1, 0, false⟩).1.head = some ⟨1, 0, 1, 0, true⟩ ∧
    (0 : Nat) ≠ 1 ∧
    (remove_impl (mark_valid_impl
        (fork_database_add (reset_impl ⟨0, 0, 0, 0⟩) ⟨1, 0, 1, 0, false⟩ false).1
        ⟨1, 0, 1, 0, false⟩).1 0).2 = some Err.wouldRemoveHead := by decide

/-- Counterexample to claim C7 as stated: `advance_root` on a node that is
present in the index but not yet validated fails with the dedicated
"not yet been validated" error, which is neither the RootNotSet nor the
NotFound failure named by the claim. -/
theorem advance_root_invalid_counterexample :
    get_block_impl
      (fork_database_add (reset_impl ⟨0, 0, 0, 0⟩) ⟨1, 0, 1, 0, false⟩ false).1 1 =
      some ⟨1, 0, 1, 0, false⟩ ∧
    (advance_root_impl
      (fork_database_add (reset_impl ⟨0, 0, 0, 0⟩) ⟨1, 0, 1, 0, false⟩ false).1 1).2 =
      some Err.notValidated ∧
    Err.notValidated ≠ Err.rootNotSet ∧
    Err.notValidated ≠ Err.notFound := by decide

/-! ### Order of the entries written by close -/

theorem fp_asymm {a b : BlockState} (h : first_preferred a b = true) :
    first_preferred b a = false := by
  simp only [first_preferred, decide_eq_true_eq, decide_eq_false_iff_not] at h ⊢
  omega

theorem fp_false_trans {a b c : BlockState}
    (h₁ : first_preferred a b = false) (h₂ : first_preferred b c = false) :
    first_preferred a c = false := by
  simp only [first_preferred, decide_eq_false_iff_not] at h₁ h₂ ⊢
  omega

/-- Nodes of equal validity adjacent in the composite order, taken in
reverse, are ascending under the fork-choice comparison. -/
theorem fp_false_of_not_lt {a b : BlockState} (h : by_lib_lt a b = false)
    (hv : a.valid = b.valid) : first_preferred a b = false := by
  cases hfp : first_preferred a b with
  | false => rfl
  | true => rw [by_lib_lt_of_fp hv hfp] at h; exact absurd h (by simp)

theorem close_merge_go_mem {fuel : Nat} {vs us : List BlockState} {x : BlockState}
    (hx : x ∈ close_merge_go fuel vs us) : x ∈ vs ∨ x ∈ us := by
  induction fuel generalizing vs us with
  | zero => simp [close_merge_go] at hx
  | succ fuel ih =>
    match vs, us with
    | [], [] =>
      rw [close_merge_go] at hx
      rcases ih hx with h | h <;> simp at h
    | [], u :: us =>
      rw [close_merge_go] at hx
      rcases List.mem_cons.mp hx with h | h
      · exact Or.inr (h ▸ List.mem_cons_self u us)
      · rcases ih h with h' | h'
        · simp at h'
        · exact Or.inr (List.mem_cons_of_mem u h')
    | v :: vs, [] =>
      rw [close_merge_go] at hx
      rcases List.mem_cons.mp hx with h | h
      · exact Or.inl (h ▸ List.mem_cons_self v vs)
      · rcases ih h with h' | h'
        · exact Or.inl (List.mem_cons_of_mem v h')
        · simp at h'
    | v :: vs, u :: us =>
      rw [close_merge_go] at hx
      by_cases hfp : first_preferred v u = true
      · rw [if_pos hfp] at hx
        rcases List.mem_cons.mp hx with h | h
        · exact Or.inr (h ▸ List.mem_cons_self u us)
        · rcases ih h with h' | h'
          · exact Or.inl h'
          · exact Or.inr (List.mem_cons_of_mem u h')
      · rw [if_neg hfp] at hx
        rcases List.mem_cons.mp hx with h | h
        · exact Or.inl (h ▸ List.mem_cons_self v vs)
        · rcases ih h with h' | h'
          · exact Or.inl (List.mem_cons_of_mem v h')
          · exact Or.inr h'

theorem close_merge_go_perm : ∀ (fuel : Nat) (vs us : List BlockState),
    vs.length + us.length ≤ fuel →
    List.Perm (close_merge_go fuel vs us) (vs ++ us)
  | 0, vs, us, hf => by
    have hvs : vs = [] := List.eq_nil_of_length_eq_zero (by omega)
    have hus : us = [] := List.eq_nil_of_length_eq_zero (by omega)
    subst hvs; subst hus
    simp [close_merge_go]
  | fuel + 1, [], [], hf => by
    simpa [close_merge_go] using close_merge_go_perm fuel [] [] (by simp)
  | fuel + 1, [], u :: us, hf => by
    rw [close_merge_go]
    simpa using (close_merge_go_perm fuel [] us (by simp at hf ⊢; omega)).cons u
  | fuel + 1, v :: vs, [], hf => by
    rw [close_merge_go]
    simpa using (close_merge_go_perm fuel vs [] (by simp at hf ⊢; omega)).cons v
  | fuel + 1, v :: vs, u :: us, hf => by
    rw [close_merge_go]
    by_cases hfp : first_preferred v u = true
    · rw [if_pos hfp]
      have ih := (close_merge_go_perm fuel (v :: vs) us (by simp at hf ⊢; omega)).cons u
      exact ih.trans List.perm_middle.symm
    · rw [if_neg hfp]
      exact (close_merge_go_perm fuel vs (u :: us) (by simp at hf ⊢; omega)).cons v

theorem close_merge_go_pairwise : ∀ (fuel : Nat) (vs us : List BlockState),
    List.Pairwise (fun a b => first_preferred a b = false) vs →
    List.Pairwise (fun a b => first_preferred a b = false) us →
    List.Pairwise (fun a b => first_preferred a b = false) (close_merge_go fuel vs us)
  | 0, vs, us, _, _ => by simp [close_merge_go]
  | fuel + 1, [], [], _, _ => by
    simpa [close_merge_go] using close_merge_go_pairwise fuel [] [] List.Pairwise.nil List.Pairwise.nil
  | fuel + 1, [], u :: us, hvs, hus => by
    rw [close_merge_go]
    refine List.Pairwise.cons ?_ (close_merge_go_pairwise fuel [] us List.Pairwise.nil hus.of_cons)
    intro x hx
    rcases close_merge_go_mem hx with h | h
    · simp at h
    · exact (List.pairwise_cons.mp hus).1 x h
  | fuel + 1, v :: vs, [], hvs, hus => by
    rw [close_merge_go]
    refine List.Pairwise.cons ?_ (close_merge_go_pairwise fuel vs [] hvs.of_cons List.Pairwise.nil)
    intro x hx
    rcases close_merge_go_mem hx with h | h
    · exact (List.pairwise_cons.mp hvs).1 x h
    · simp at h
  | fuel + 1, v :: vs, u :: us, hvs, hus => by
    rw [close_merge_go]
    by_cases hfp : first_preferred v u = true
    · rw [if_pos hfp]
      refine List.Pairwise.cons ?_ (close_merge_go_pairwise fuel (v :: vs) us hvs hus.of_cons)
      intro x hx
      rcases close_merge_go_mem hx with h | h
      · rcases List.mem_cons.mp h with h' | h'
        · exact h' ▸ fp_asymm hfp
        · exact fp_false_trans (fp_asymm hfp) ((List.pairwise_cons.mp hvs).1 x h')
      · exact (List.pairwise_cons.mp hus).1 x h
    · rw [if_neg hfp]
      have hvu : first_preferred v u = false := by
        cases h : first_preferred v u with
        | false => rfl
        | true => exact absurd h hfp
      refine List.Pairwise.cons ?_ (close_merge_go_pairwise fuel vs (u :: us) hvs.of_cons hus)
      intro x hx
      rcases close_merge_go_mem hx with h | h
      · exact (List.pairwise_cons.mp hvs).1 x h
      · rcases List.mem_cons.mp h with h' | h'
        · exact h' ▸ hvu
        · exact fp_false_trans hvu ((List.pairwise_cons.mp hus).1 x h')

/-- The two reversed ranges fed to the merge are each ascending under the
fork-choice comparison. -/
theorem stream_pairwise (l : List BlockState) (p : Bool) :
    List.Pairwise (fun a b => first_preferred a b = false)
      (((by_lib_list l).filter (fun n => n.valid == p)).reverse) := by
  have hs : List.Sorted by_lib_le ((by_lib_list l).filter (fun n => n.valid == p)) :=
    (by_lib_list_sorted l).filter _
  rw [List.pairwise_reverse]
  refine List.Pairwise.imp_of_mem ?_ hs
  intro a b ha hb hr
  have hav : a.valid = p := by simpa using List.of_mem_filter ha
  have hbv : b.valid = p := by simpa using List.of_mem_filter hb
  exact fp_false_of_not_lt hr (hbv.trans hav.symm)

/-- Permutation form: the merged write order contains exactly the index
entries. -/
theorem close_blocks_perm (l : List BlockState) :
    List.Perm
      (close_merge ((((by_lib_list l).filter (fun n => n.valid)).reverse))
        ((((by_lib_list l).filter (fun n => !n.valid)).reverse))) l := by
  unfold close_merge
  refine (close_merge_go_perm _ _ _ (le_of_eq rfl)).trans ?_
  refine List.Perm.trans (List.Perm.append (List.reverse_perm _) (List.reverse_perm _)) ?_
  exact (List.filter_append_perm (fun n => n.valid) (by_lib_list l)).trans (by_lib_list_perm l)

/-- Pairwise form specialised to the two streams used by `close_impl`. -/
theorem close_blocks_pairwise (l : List BlockState) :
    List.Pairwise (fun a b => first_preferred a b = false)
      (close_merge ((((by_lib_list l).filter (fun n => n.valid)).reverse))
        ((((by_lib_list l).filter (fun n => !n.valid)).reverse))) := by
  unfold close_merge
  refine close_merge_go_pairwise _ _ _ ?_ ?_
  · have := stream_pairwise l true
    simpa using this
  · have := stream_pairwise l false
    simpa using this

/-! ### Claim C3 -/

/-- Claim C3 (amended): on close with the root set, all index entries are
written, in ascending fork-preference order: the merge over the two reverse
ranges of the `by_lib_block_num` index emits at each step the front that is
not more `first_preferred` (the validated front on ties); consequently, for
any entry `a` written before an entry `b`, `first_preferred(a, b)` is
false.  The claimed descending order with valid entries first is refuted by
the counterexample. -/
theorem close_blocks_ascending (s : ForkDB) (r : BlockState) (magic : Nat)
    (hroot : s.root = some r) :
    ∃ f, (close_impl s magic).1 = some f ∧
      List.Perm f.blocks s.index ∧
      List.Pairwise (fun a b => first_preferred a b = false) f.blocks := by
  refine ⟨_, by rw [close_impl, hroot], ?_, ?_⟩
  · exact close_blocks_perm s.index
  · exact close_blocks_pairwise s.index

/-- Witness for `close_blocks_ascending` on a concrete two-entry tree. -/
theorem close_blocks_ascending_witness :
    ∃ f, (close_impl ⟨some ⟨0, 0, 0, 0, true⟩, some ⟨2, 1, 2, 0, true⟩,
        [⟨1, 0, 1, 0, true⟩, ⟨2, 1, 2, 0, true⟩]⟩ 7).1 = some f ∧
      List.Perm f.blocks [⟨1, 0, 1, 0, true⟩, ⟨2, 1, 2, 0, true⟩] ∧
      List.Pairwise (fun a b => first_preferred a b = false) f.blocks :=
  close_blocks_ascending
    ⟨some ⟨0, 0, 0, 0, true⟩, some ⟨2, 1, 2, 0, true⟩,
      [⟨1, 0, 1, 0, true⟩, ⟨2, 1, 2, 0, true⟩]⟩ ⟨0, 0, 0, 0, true⟩ 7 rfl

/-! ### Descendants and structural invariants of the tree -/

/-- `Desc index a n`: node `n` is a strict descendant of the id `a` inside
`index`, through the `previous` links. -/
inductive Desc (index : List BlockState) (a : Nat) : BlockState → Prop where
  | child : ∀ {n : BlockState}, n ∈ index → n.previous = a → Desc index a n
  | step : ∀ {p n : BlockState}, Desc index a p → n ∈ index → n.previous = p.id →
      Desc index a n

/-- The id `x` is `a` itself or the id of a descendant of `a`. -/
def DescId (index : List BlockState) (a x : Nat) : Prop :=
  x = a ∨ ∃ n, Desc index a n ∧ n.id = x

/-- Uniqueness of ids within the container, enforced by the hashed unique
primary index. -/
def IdsNodup (index : List BlockState) : Prop :=
  (index.map (fun n => n.id)).Nodup

/-- Internal parent-height discipline of §3: a node linked to an index
parent sits exactly one block above it. -/
def BnSucc (index : List BlockState) : Prop :=
  ∀ n ∈ index, ∀ p ∈ index, p.id = n.previous → n.block_num = p.block_num + 1

theorem Desc.mem {index : List BlockState} {a : Nat} {n : BlockState}
    (h : Desc index a n) : n ∈ index := by
  cases h with
  | child hm _ => exact hm
  | step _ hm _ => exact hm

theorem desc_mono {index index' : List BlockState} {a : Nat} {n : BlockState}
    (hsub : ∀ m, m ∈ index → m ∈ index') (h : Desc index a n) :
    Desc index' a n := by
  induction h with
  | child hm hp => exact Desc.child (hsub _ hm) hp
  | step _ hm hp ih => exact Desc.step ih (hsub _ hm) hp

theorem id_inj {index : List BlockState} (h : IdsNodup index) {n m : BlockState}
    (hn : n ∈ index) (hm : m ∈ index) (he : n.id = m.id) : n = m :=
  List.inj_on_of_nodup_map h hn hm he

theorem desc_bn {index : List BlockState} (hbn : BnSucc index) {a : BlockState}
    (ha : a ∈ index) : ∀ {n : BlockState}, Desc index a.id n →
      a.block_num < n.block_num := by
  intro n h
  induction h with
  | child hm hp =>
    have := hbn _ hm _ ha hp.symm
    omega
  | step hd hm hp ih =>
    have := hbn _ hm _ hd.mem hp.symm
    omega

theorem desc_id_ne {index : List BlockState} (hn : IdsNodup index)
    (hbn : BnSucc index) {a : Nat} {m : BlockState} (h : Desc index a m) :
    m.id ≠ a := by
  intro he
  by_cases hex : ∃ b ∈ index, b.id = a
  · rcases hex with ⟨b, hb, hba⟩
    have hlt := desc_bn hbn hb (show Desc index b.id m by rw [hba]; exact h)
    have heq : m = b := id_inj hn h.mem hb (he.trans hba.symm)
    rw [heq] at hlt
    omega
  · exact hex ⟨m, h.mem, he⟩

theorem no_self_parent {index : List BlockState} (hbn : BnSucc index)
    {n : BlockState} (hm : n ∈ index) (h : n.previous = n.id) : False := by
  have := hbn n hm n hm h.symm
  omega

theorem mem_children_of {index : List BlockState} {q c : Nat} :
    c ∈ children_of index q ↔ ∃ n, n ∈ index ∧ n.id = c ∧ n.previous = q := by
  unfold children_of
  constructor
  · intro h
    rcases List.mem_map.mp h with ⟨n, hn, hni⟩
    rcases List.mem_filter.mp hn with ⟨hmem, hprev⟩
    exact ⟨n, hmem, hni, by simpa using hprev⟩
  · intro ⟨n, hmem, hni, hprev⟩
    exact List.mem_map.mpr ⟨n, List.mem_filter.mpr ⟨hmem, by simpa using hprev⟩, hni⟩

theorem children_of_nodup {index : List BlockState} (hn : IdsNodup index)
    (q : Nat) : (children_of index q).Nodup := by
  unfold children_of
  exact List.Nodup.sublist ((List.filter_sublist index).map (fun n => n.id)) hn

/-! ### The breadth-first enumeration of remove -/

theorem bfs_error_cases {index : List BlockState} {headId : Nat} :
    ∀ {fuel : Nat} {acc pend : List Nat} {e : Err},
      bfs_collect index headId fuel acc pend = .error e →
      e = .fuel ∨ e = .wouldRemoveHead := by
  intro fuel
  induction fuel with
  | zero =>
    intro acc pend e h
    simp only [bfs_collect, Except.error.injEq] at h
    exact Or.inl h.symm
  | succ fuel ih =>
    intro acc pend e h
    cases pend with
    | nil => simp [bfs_collect] at h
    | cons q qs =>
      simp only [bfs_collect] at h
      by_cases hq : q = headId
      · rw [if_pos hq] at h
        simp only [Except.error.injEq] at h
        exact Or.inr h.symm
      · rw [if_neg hq] at h
        exact ih h

/-- Elements delivered by a successful enumeration are the seed or
descendant ids, provided the queue only held such ids. -/
theorem bfs_sound {index : List BlockState} {headId a : Nat} :
    ∀ {fuel : Nat} {acc pend : List Nat} {res : List Nat},
      bfs_collect index headId fuel acc pend = .ok res →
      (∀ x ∈ acc, DescId index a x) → (∀ x ∈ pend, DescId index a x) →
      ∀ x ∈ res, DescId index a x := by
  intro fuel
  induction fuel with
  | zero =>
    intro acc pend res h
    simp [bfs_collect] at h
  | succ fuel ih =>
    intro acc pend res h hacc hpend
    cases pend with
    | nil =>
      simp only [bfs_collect, Except.ok.injEq] at h
      exact h ▸ hacc
    | cons q qs =>
      simp only [bfs_collect] at h
      by_cases hq : q = headId
      · rw [if_pos hq] at h; simp at h
      · rw [if_neg hq] at h
        refine ih h ?_ ?_
        · intro x hx
          rcases List.mem_append.mp hx with h' | h'
          · exact hacc x h'
          · have hxq : x = q := by simpa using h'
            exact hxq ▸ hpend q (List.mem_cons_self q qs)
        · intro x hx
          rcases List.mem_append.mp hx with h' | h'
          · exact hpend x (List.mem_cons_of_mem q h')
          · rcases mem_children_of.mp h' with ⟨n, hnmem, hnid, hnprev⟩
            rcases hpend q (List.mem_cons_self q qs) with hq0 | ⟨m, hm, hmid⟩
            · exact Or.inr ⟨n, Desc.child hnmem (by rw [hnprev, hq0]), hnid⟩
            · exact Or.inr ⟨n, Desc.step hm hnmem (by rw [hnprev, ← hmid]), hnid⟩

/-- A `wouldRemoveHead` failure means the head id was reached from the
queue, hence is the seed or a descendant id. -/
theorem bfs_head_desc {index : List BlockState} {headId a : Nat} :
    ∀ {fuel : Nat} {acc pend : List Nat},
      bfs_collect index headId fuel acc pend = .error .wouldRemoveHead →
      (∀ x ∈ pend, DescId index a x) → DescId index a headId := by
  intro fuel
  induction fuel with
  | zero =>
    intro acc pend h hpend
    simp [bfs_collect] at h
  | succ fuel ih =>
    intro acc pend h hpend
    cases pend with
    | nil => simp [bfs_collect] at h
    | cons q qs =>
      simp only [bfs_collect] at h
      by_cases hq : q = headId
      · exact hq ▸ hpend q (List.mem_cons_self q qs)
      · rw [if_neg hq] at h
        refine ih h ?_
        intro x hx
        rcases List.mem_append.mp hx with h' | h'
        · exact hpend x (List.mem_cons_of_mem q h')
        · rcases mem_children_of.mp h' with ⟨n, hnmem, hnid, hnprev⟩
          rcases hpend q (List.mem_cons_self q qs) with hq0 | ⟨m, hm, hmid⟩
          · exact Or.inr ⟨n, Desc.child hnmem (by rw [hnprev, hq0]), hnid⟩
          · exact Or.inr ⟨n, Desc.step hm hnmem (by rw [hnprev, ← hmid]), hnid⟩

/-- A successful enumeration swallows its queue and is closed under
children of ids processed after the initial prefix. -/
theorem bfs_closure {index : List BlockState} {headId : Nat} :
    ∀ {fuel : Nat} {acc pend res : List Nat},
      bfs_collect index headId fuel acc pend = .ok res →
      (∀ x ∈ acc ++ pend, x ∈ res) ∧
      (∀ q ∈ res, q ∉ acc → ∀ c ∈ children_of index q, c ∈ res) := by
  intro fuel
  induction fuel with
  | zero =>
    intro acc pend res h
    simp [bfs_collect] at h
  | succ fuel ih =>
    intro acc pend res h
    cases pend with
    | nil =>
      simp only [bfs_collect, Except.ok.injEq] at h
      subst h
      exact ⟨fun x hx => by simpa using hx, fun q hq hnq c hc => absurd hq hnq⟩
    | cons q qs =>
      simp only [bfs_collect] at h
      by_cases hq : q = headId
      · rw [if_pos hq] at h; simp at h
      · rw [if_neg hq] at h
        rcases ih h with ⟨hres, hclosed⟩
        constructor
        · intro x hx
          rcases List.mem_append.mp hx with h' | h'
          · exact hres x (List.mem_append.mpr (Or.inl (List.mem_append.mpr (Or.inl h'))))
          · rcases List.mem_cons.mp h' with h'' | h''
            · exact hres x (List.mem_append.mpr
                (Or.inl (List.mem_append.mpr (Or.inr (by simpa using h'')))))
            · exact hres x (List.mem_append.mpr (Or.inr (List.mem_append.mpr (Or.inl h''))))
        · intro p hp hpacc c hc
          by_cases hpq : p = q
          · subst hpq
            exact hres c (List.mem_append.mpr (Or.inr (List.mem_append.mpr (Or.inr hc))))
          · refine hclosed p hp ?_ c hc
            intro hmem
            rcases List.mem_append.mp hmem with h' | h'
            · exact hpacc h'
            · exact hpq (by simpa using h')

/-- A successful enumeration never contains the head id, provided the
already-processed prefix does not. -/
theorem bfs_ok_not_head {index : List BlockState} {headId : Nat} :
    ∀ {fuel : Nat} {acc pend res : List Nat},
      bfs_collect index headId fuel acc pend = .ok res →
      (∀ x ∈ acc, x ≠ headId) → ∀ x ∈ res, x ≠ headId := by
  intro fuel
  induction fuel with
  | zero =>
    intro acc pend res h hacc
    simp [bfs_collect] at h
  | succ fuel ih =>
    intro acc pend res h hacc
    cases pend with
    | nil =>
      simp only [bfs_collect, Except.ok.injEq] at h
      exact h ▸ hacc
    | cons q qs =>
      simp only [bfs_collect] at h
      by_cases hq : q = headId
      · rw [if_pos hq] at h; simp at h
      · rw [if_neg hq] at h
        refine ih h ?_
        intro x hx
        rcases List.mem_append.mp hx with h' | h'
        · exact hacc x h'
        · exact (by simpa using h' : x = q) ▸ hq

/-! ### Fuel adequacy of the breadth-first enumeration -/

/-- Freshness of the children appended when `q` is processed: under unique
ids and the height discipline, none of them is already queued. -/
theorem bfs_step_fresh {index : List BlockState} {a q c : Nat}
    {acc qs : List Nat}
    (hn : IdsNodup index) (hbn : BnSucc index)
    (hnd : (acc ++ q :: qs).Nodup)
    (hsound : ∀ x ∈ acc ++ q :: qs, DescId index a x)
    (hpar : ∀ x ∈ acc ++ q :: qs, x ≠ a → ∃ n, n ∈ index ∧ n.id = x ∧ n.previous ∈ acc)
    (hc : c ∈ children_of index q) (hold : c ∈ acc ++ q :: qs) : False := by
  rcases mem_children_of.mp hc with ⟨n, hnmem, hnid, hnprev⟩
  have hqnotacc : q ∉ acc := by
    rcases List.nodup_append.mp hnd with ⟨_, _, hdisj⟩
    intro hqa
    exact hdisj hqa (List.mem_cons_self q qs)
  by_cases hca : c = a
  · subst hca
    rcases hsound q (List.mem_append.mpr (Or.inr (List.mem_cons_self q qs))) with hqa | ⟨m, hdm, hmid⟩
    · exact no_self_parent hbn hnmem (by rw [hnprev, hqa, hnid])
    · exact desc_id_ne hn hbn
        (Desc.step hdm hnmem (by rw [hnprev, ← hmid])) hnid
  · rcases hpar c hold hca with ⟨n', hn'mem, hn'id, hn'prev⟩
    have heqn : n = n' := id_inj hn hnmem hn'mem (hnid.trans hn'id.symm)
    rw [heqn] at hnprev
    rw [hnprev] at hn'prev
    exact hqnotacc hn'prev

/-- With unique ids and the height discipline, the enumeration fuel
`index.length + 2` used by `remove_impl` cannot be exhausted: the processed
prefix grows by one per step while staying duplicate-free inside
`{seed} ∪ ids(index)`. -/
theorem bfs_no_fuel {index : List BlockState} {headId a : Nat}
    (hn : IdsNodup index) (hbn : BnSucc index) :
    ∀ (fuel : Nat) (acc pend : List Nat),
      (acc ++ pend).Nodup →
      (∀ x ∈ acc ++ pend, DescId index a x) →
      (∀ x ∈ acc ++ pend, x ≠ a → ∃ n, n ∈ index ∧ n.id = x ∧ n.previous ∈ acc) →
      index.length + 2 ≤ fuel + acc.length →
      bfs_collect index headId fuel acc pend ≠ .error .fuel := by
  intro fuel
  induction fuel with
  | zero =>
    intro acc pend hnd hsound hpar hlen
    exfalso
    have haccnd : acc.Nodup := (List.nodup_append.mp hnd).1
    have hsub : acc ⊆ a :: index.map (fun n => n.id) := by
      intro x hx
      rcases hsound x (List.mem_append.mpr (Or.inl hx)) with h | ⟨m, hdm, hmi⟩
      · exact h ▸ List.mem_cons_self _ _
      · exact List.mem_cons_of_mem _ (hmi ▸ List.mem_map_of_mem _ hdm.mem)
    have hlen2 : acc.length ≤ (a :: index.map (fun n => n.id)).length := by
      calc acc.length = acc.toFinset.card := (List.toFinset_card_of_nodup haccnd).symm
        _ ≤ (a :: index.map (fun n => n.id)).toFinset.card :=
            Finset.card_le_card (by
              intro x hx
              rw [List.mem_toFinset] at *
              exact hsub hx)
        _ ≤ _ := List.toFinset_card_le _
    simp only [List.length_cons, List.length_map] at hlen2
    omega
  | succ fuel ih =>
    intro acc pend hnd hsound hpar hlen
    cases pend with
    | nil => simp [bfs_collect]
    | cons q qs =>
      simp only [bfs_collect]
      by_cases hq : q = headId
      · rw [if_pos hq]; simp
      · rw [if_neg hq]
        have hstep : ∀ c ∈ children_of index q, c ∉ acc ++ q :: qs := fun c hc hold =>
          bfs_step_fresh hn hbn hnd hsound hpar hc hold
        apply ih (acc ++ [q]) (qs ++ children_of index q)
        · have hre : (acc ++ [q]) ++ (qs ++ children_of index q) =
              (acc ++ q :: qs) ++ children_of index q := by
            simp only [List.append_assoc, List.singleton_append, List.cons_append,
              List.nil_append]
          rw [hre, List.nodup_append]
          exact ⟨hnd, children_of_nodup hn q, fun x hx hcx => hstep x hcx hx⟩
        · intro x hx
          rcases List.mem_append.mp hx with h1 | h2
          · rcases List.mem_append.mp h1 with ha | hq1
            · exact hsound x (List.mem_append.mpr (Or.inl ha))
            · exact hsound x (List.mem_append.mpr
                (Or.inr ((by simpa using hq1 : x = q) ▸ List.mem_cons_self q qs)))
          · rcases List.mem_append.mp h2 with hqs | hch
            · exact hsound x (List.mem_append.mpr (Or.inr (List.mem_cons_of_mem q hqs)))
            · rcases mem_children_of.mp hch with ⟨m, hmmem, hmid, hmprev⟩
              rcases hsound q (List.mem_append.mpr (Or.inr (List.mem_cons_self q qs))) with
                hqa | ⟨p, hdp, hpid⟩
              · exact Or.inr ⟨m, Desc.child hmmem (by rw [hmprev, hqa]), hmid⟩
              · exact Or.inr ⟨m, Desc.step hdp hmmem (by rw [hmprev, ← hpid]), hmid⟩
        · intro x hx hxa
          rcases List.mem_append.mp hx with h1 | h2
          · rcases List.mem_append.mp h1 with ha | hq1
            · rcases hpar x (List.mem_append.mpr (Or.inl ha)) hxa with ⟨m, hm, hmi, hmp⟩
              exact ⟨m, hm, hmi, List.mem_append.mpr (Or.inl hmp)⟩
            · have hxq : x = q := by simpa using hq1
              subst hxq
              rcases hpar x (List.mem_append.mpr (Or.inr (List.mem_cons_self x qs))) hxa with
                ⟨m, hm, hmi, hmp⟩
              exact ⟨m, hm, hmi, List.mem_append.mpr (Or.inl hmp)⟩
          · rcases List.mem_append.mp h2 with hqs | hch
            · rcases hpar x (List.mem_append.mpr (Or.inr (List.mem_cons_of_mem q hqs))) hxa with
                ⟨m, hm, hmi, hmp⟩
              exact ⟨m, hm, hmi, List.mem_append.mpr (Or.inl hmp)⟩
            · rcases mem_children_of.mp hch with ⟨m, hmmem, hmid, hmprev⟩
              refine ⟨m, hmmem, hmid, List.mem_append.mpr (Or.inr ?_)⟩
              rw [hmprev]
              exact List.mem_singleton.mpr rfl
        · simp only [List.length_append, List.length_cons, List.length_nil] at hlen ⊢
          omega

/-- A successful enumeration seeded at `tid` contains the id of every
descendant of `tid`. -/
theorem bfs_desc_in_res {s : ForkDB} {hd : BlockState} {tid : Nat} {ids : List Nat}
    (hres : bfs_collect s.index hd.id (s.index.length + 2) [] [tid] = .ok ids) :
    ∀ n, Desc s.index tid n → n.id ∈ ids := by
  rcases bfs_closure hres with ⟨hin, hcl⟩
  have hseed : tid ∈ ids := hin tid (by simp)
  intro n hdn
  induction hdn with
  | child hm hp =>
    exact hcl tid hseed (List.not_mem_nil tid) _
      (mem_children_of.mpr ⟨_, hm, rfl, hp⟩)
  | step hdp hm hp ih =>
    exact hcl _ ih (List.not_mem_nil _) _ (mem_children_of.mpr ⟨_, hm, rfl, hp⟩)

/-! ### Claim C6 -/

instance (l : List BlockState) : Decidable (IdsNodup l) := by
  unfold IdsNodup; infer_instance

instance (l : List BlockState) : Decidable (BnSucc l) := by
  unfold BnSucc; infer_instance

/-- Claim C6 (amended): with a set head and the structural invariants,
`remove(tid)` fails with `wouldRemoveHead` exactly when the head is `tid`
or a descendant of `tid`; a failure mutates nothing; the only possible
outcomes are success and `wouldRemoveHead`; and success erases exactly
`tid` and its descendants, so no remaining node has `tid` as an ancestor.
The original parenthetical is corrected: an id absent from the index can
still fail when it is the root's id, since the root's children are
enumerated (see the counterexample). -/
theorem remove_spec (s : ForkDB) (hd : BlockState) (tid : Nat)
    (hh : s.head = some hd) (hn : IdsNodup s.index) (hbn : BnSucc s.index) :
    ((remove_impl s tid).2 = some Err.wouldRemoveHead ↔ DescId s.index tid hd.id) ∧
    ((remove_impl s tid).2 = some Err.wouldRemoveHead → (remove_impl s tid).1 = s) ∧
    ((remove_impl s tid).2 = none ∨ (remove_impl s tid).2 = some Err.wouldRemoveHead) ∧
    ((remove_impl s tid).2 = none →
      (∀ n, n ∈ (remove_impl s tid).1.index ↔
        n ∈ s.index ∧ ¬ DescId s.index tid n.id) ∧
      (∀ n ∈ (remove_impl s tid).1.index, ¬ Desc (remove_impl s tid).1.index tid n)) := by
  have hpend0 : ∀ x ∈ [tid], DescId s.index tid x := by
    intro x hx
    exact Or.inl (by simpa using hx)
  cases hres : bfs_collect s.index hd.id (s.index.length + 2) [] [tid] with
  | error e =>
    have hkey : remove_impl s tid = (s, some e) := by
      unfold remove_impl
      rw [hh]
      dsimp only
      rw [hres]
    rcases bfs_error_cases hres with he | he
    · subst he
      exact absurd hres (bfs_no_fuel hn hbn _ [] [tid] (by simp)
        (by simpa using hpend0) (by simp) (by simp))
    · subst he
      rw [hkey]
      refine ⟨?_, fun _ => rfl, Or.inr rfl, fun hc => by simp at hc⟩
      constructor
      · intro _
        exact bfs_head_desc hres hpend0
      · intro _
        rfl
  | ok ids =>
    have hkey : remove_impl s tid =
        ({ s with index := s.index.filter (fun n => !(ids.contains n.id)) }, none) := by
      unfold remove_impl
      rw [hh]
      dsimp only
      rw [hres]
    have hsound : ∀ x ∈ ids, DescId s.index tid x :=
      bfs_sound hres (by simp) hpend0
    have hnothead : ∀ x ∈ ids, x ≠ hd.id := bfs_ok_not_head hres (by simp)
    have hseed : tid ∈ ids := (bfs_closure hres).1 tid (by simp)
    rw [hkey]
    have hmem : ∀ n, n ∈ s.index.filter (fun n => !(ids.contains n.id)) ↔
        n ∈ s.index ∧ ¬ DescId s.index tid n.id := by
      intro n
      rw [List.mem_filter]
      constructor
      · intro ⟨hmem, hnc⟩
        refine ⟨hmem, ?_⟩
        intro hdesc
        have hnin : n.id ∈ ids := by
          rcases hdesc with hid | ⟨m, hdm, hmi⟩
          · exact hid ▸ hseed
          · have heq : m = n := id_inj hn hdm.mem hmem hmi
            exact heq ▸ bfs_desc_in_res hres m hdm
        simp [hnin] at hnc
      · intro ⟨hmem, hnd⟩
        refine ⟨hmem, ?_⟩
        have : n.id ∉ ids := fun hc => hnd (hsound n.id hc)
        simpa using this
    refine ⟨?_, ?_, Or.inl rfl, ?_⟩
    · constructor
      · intro hc
        simp at hc
      · intro hdesc
        exfalso
        rcases hdesc with hid | ⟨n, hdn, hni⟩
        · exact hnothead tid hseed hid.symm
        · exact hnothead n.id (bfs_desc_in_res hres n hdn) hni
    · intro hc
      simp at hc
    · intro _
      refine ⟨hmem, ?_⟩
      intro n hnmem hdesc
      have hdesc' : Desc s.index tid n :=
        desc_mono (fun m hm => List.mem_of_mem_filter hm) hdesc
      rcases (hmem n).mp hnmem with ⟨_, hnd⟩
      exact hnd (Or.inr ⟨n, hdesc', rfl⟩)

/-- Witness for `remove_spec`: removing a pending branch under a valid
head, with the failure characterization exhibited at the same tree. -/
theorem remove_spec_witness :
    (((remove_impl ⟨some ⟨0, 0, 0, 0, true⟩, some ⟨1, 0, 1, 0, true⟩,
        [⟨1, 0, 1, 0, true⟩, ⟨2, 1, 2, 0, false⟩]⟩ 2).2 = some Err.wouldRemoveHead) ↔
      DescId [⟨1, 0, 1, 0, true⟩, ⟨2, 1, 2, 0, false⟩] 2 1) ∧
    ((remove_impl ⟨some ⟨0, 0, 0, 0, true⟩, some ⟨1, 0, 1, 0, true⟩,
        [⟨1, 0, 1, 0, true⟩, ⟨2, 1, 2, 0, false⟩]⟩ 2).2 = none ∨
     (remove_impl ⟨some ⟨0, 0, 0, 0, true⟩, some ⟨1, 0, 1, 0, true⟩,
        [⟨1, 0, 1, 0, true⟩, ⟨2, 1, 2, 0, false⟩]⟩ 2).2 = some Err.wouldRemoveHead) :=
  ⟨(remove_spec ⟨some ⟨0, 0, 0, 0, true⟩, some ⟨1, 0, 1, 0, true⟩,
      [⟨1, 0, 1, 0, true⟩, ⟨2, 1, 2, 0, false⟩]⟩ ⟨1, 0, 1, 0, true⟩ 2 rfl
      (by decide) (by decide)).1,
   (remove_spec ⟨some ⟨0, 0, 0, 0, true⟩, some ⟨1, 0, 1, 0, true⟩,
      [⟨1, 0, 1, 0, true⟩, ⟨2, 1, 2, 0, false⟩]⟩ ⟨1, 0, 1, 0, true⟩ 2 rfl
      (by decide) (by decide)).2.2.1⟩

/-! ### The pruning loop of advance_root -/

theorem collect_ancestors_root_mem {s : ForkDB} {rid : Nat} :
    ∀ {fuel : Nat} {b : BlockState} {acc res : List Nat},
      collect_ancestors s rid fuel b acc = .ok res → rid ∈ res := by
  intro fuel
  induction fuel with
  | zero =>
    intro b acc res h
    simp [collect_ancestors] at h
  | succ fuel ih =>
    intro b acc res h
    simp only [collect_ancestors] at h
    cases hg : get_block_impl s b.previous with
    | some b' =>
      rw [hg] at h
      exact ih h
    | none =>
      rw [hg] at h
      by_cases hp : b.previous = rid
      · rw [if_pos hp] at h
        simp only [Except.ok.injEq] at h
        subst h
        exact List.mem_append.mpr (Or.inr (by simp [hp]))
      · rw [if_neg hp] at h
        simp at h

/-- Elimination form of a successful `remove_impl`: the head was set, the
result is the filtered index, and the collected id set contains the seed
and is closed under children. -/
theorem remove_ok_elim {t u : ForkDB} {i : Nat} (h : remove_impl t i = (u, none)) :
    ∃ (hd : BlockState) (ids : List Nat), t.head = some hd ∧
      u = { t with index := t.index.filter (fun n => !(ids.contains n.id)) } ∧
      i ∈ ids ∧
      (∀ q ∈ ids, ∀ c ∈ children_of t.index q, c ∈ ids) := by
  unfold remove_impl at h
  cases hh : t.head with
  | none =>
    rw [hh] at h
    simp at h
  | some hd =>
    rw [hh] at h
    dsimp only at h
    cases hres : bfs_collect t.index hd.id (t.index.length + 2) [] [i] with
    | error e =>
      rw [hres] at h
      simp at h
    | ok ids =>
      rw [hres] at h
      dsimp only at h
      refine ⟨hd, ids, rfl, ?_, ?_, ?_⟩
      · have h1 := congrArg Prod.fst h
        dsimp only at h1
        exact h1.symm
      · exact (bfs_closure hres).1 i (by simp)
      · exact fun q hq c hc => (bfs_closure hres).2 q hq (List.not_mem_nil q) c hc

theorem remove_loop_subset : ∀ (l : List Nat) (t : ForkDB) (n : BlockState),
    n ∈ (remove_loop t l).1.index → n ∈ t.index := by
  intro l
  induction l with
  | nil =>
    intro t n hn
    simpa [remove_loop] using hn
  | cons i rest ih =>
    intro t n hn
    simp only [remove_loop] at hn
    cases hri : remove_impl t i with
    | mk u e =>
      rw [hri] at hn
      cases e with
      | none =>
        dsimp only at hn
        have hn' := ih u n hn
        rcases remove_ok_elim hri with ⟨hd, ids, _, hu, _, _⟩
        rw [hu] at hn'
        exact List.mem_of_mem_filter hn'
      | some e' =>
        dsimp only at hn
        rcases remove_state_or_ok t i with hs | hs
        · rw [hri] at hs
          dsimp only at hs
          rw [← hs]
          exact hn
        · rw [hri] at hs
          simp at hs

/-- A node surviving a successful pruning loop keeps its parent: if the
parent was present when the loop started, it is still present at the end. -/
theorem remove_loop_parent_kept : ∀ (l : List Nat) (t t' : ForkDB),
    remove_loop t l = (t', none) →
    ∀ n p, n ∈ t'.index → p ∈ t.index → p.id = n.previous → p ∈ t'.index := by
  intro l
  induction l with
  | nil =>
    intro t t' h n p hn hp hpn
    simp only [remove_loop, Prod.mk.injEq] at h
    rw [← h.1]
    exact hp
  | cons i rest ih =>
    intro t t' h n p hn hp hpn
    simp only [remove_loop] at h
    cases hri : remove_impl t i with
    | mk u e =>
      rw [hri] at h
      cases e with
      | none =>
        dsimp only at h
        rcases remove_ok_elim hri with ⟨hd, ids, _, hu, hiin, hcl⟩
        have hnu : n ∈ u.index := remove_loop_subset rest u n (by rw [h]; exact hn)
        have hpu : p ∈ u.index := by
          rw [hu]
          rw [hu] at hnu
          rcases List.mem_filter.mp hnu with ⟨hnt, hnc⟩
          refine List.mem_filter.mpr ⟨hp, ?_⟩
          by_cases hpin : p.id ∈ ids
          · exfalso
            have : n.id ∈ ids :=
              hcl p.id hpin n.id (mem_children_of.mpr ⟨n, hnt, rfl, hpn.symm⟩)
            simp [this] at hnc
          · simpa using hpin
        exact ih u t' h n p hn hpu hpn
      | some e' =>
        dsimp only at h
        simp at h

/-- After a successful pruning loop no surviving node has a pruned seed as
its parent. -/
theorem remove_loop_no_seed_parent : ∀ (l : List Nat) (t t' : ForkDB),
    remove_loop t l = (t', none) →
    ∀ n ∈ t'.index, n.previous ∉ l := by
  intro l
  induction l with
  | nil =>
    intro t t' h n hn
    simp
  | cons i rest ih =>
    intro t t' h n hn
    simp only [remove_loop] at h
    cases hri : remove_impl t i with
    | mk u e =>
      rw [hri] at h
      cases e with
      | none =>
        dsimp only at h
        rcases remove_ok_elim hri with ⟨hd, ids, _, hu, hiin, hcl⟩
        have hnu : n ∈ u.index := remove_loop_subset rest u n (by rw [h]; exact hn)
        intro hmem
        rcases List.mem_cons.mp hmem with hni | hni
        · rw [hu] at hnu
          rcases List.mem_filter.mp hnu with ⟨hnt, hnc⟩
          have : n.id ∈ ids :=
            hcl i hiin n.id (mem_children_of.mpr ⟨n, hnt, rfl, hni⟩)
          simp [this] at hnc
        · exact ih u t' h n hn hni
      | some e' =>
        dsimp only at h
        simp at h

/-- Elimination form of a successful `advance_root_impl`. -/
theorem advance_root_ok_elim {s u : ForkDB} {tid : Nat}
    (h : advance_root_impl s tid = (u, none)) :
    ∃ (r new_root : BlockState) (btr : List Nat) (s₂ : ForkDB),
      s.root = some r ∧ get_block_impl s tid = some new_root ∧
      new_root.valid = true ∧
      collect_ancestors s r.id (s.index.length + 1) new_root [] = .ok btr ∧
      r.id ∈ btr ∧
      remove_loop { s with index := s.index.filter (fun n => !(n.id == tid)) } btr =
        (s₂, none) ∧
      u = { s₂ with root := some new_root } := by
  unfold advance_root_impl at h
  cases hr : s.root with
  | none =>
    rw [hr] at h
    simp at h
  | some r =>
    rw [hr] at h
    dsimp only at h
    cases hg : get_block_impl s tid with
    | none =>
      rw [hg] at h
      simp at h
    | some new_root =>
      rw [hg] at h
      dsimp only at h
      by_cases hv : new_root.valid = false
      · rw [if_pos hv] at h
        simp at h
      · rw [if_neg hv] at h
        cases hca : collect_ancestors s r.id (s.index.length + 1) new_root [] with
        | error e =>
          rw [hca] at h
          simp at h
        | ok btr =>
          rw [hca] at h
          dsimp only at h
          cases hrl : remove_loop
              { root := some r, head := s.head,
                index := s.index.filter (fun n => !(n.id == tid)) } btr with
          | mk s₂ e =>
            rw [hrl] at h
            cases e with
            | none =>
              dsimp only at h
              refine ⟨r, new_root, btr, s₂, rfl, rfl, by simpa using hv, hca,
                collect_ancestors_root_mem hca, hrl, ?_⟩
              have h1 := congrArg Prod.fst h
              dsimp only at h1
              exact h1.symm
            | some e' =>
              dsimp only at h
              simp at h

/-- Every node surviving a successful `advance_root` descends from the new
root, within the original index. -/
theorem advance_root_desc (s u : ForkDB) (tid : Nat) (r : BlockState)
    (hroot : s.root = some r) (hbn : BnSucc s.index)
    (hpr : ∀ n ∈ s.index, n.previous = r.id ∨ ∃ p ∈ s.index, p.id = n.previous)
    (h : advance_root_impl s tid = (u, none)) :
    ∀ n ∈ u.index, Desc s.index tid n := by
  rcases advance_root_ok_elim h with ⟨r', nr, btr, s₂, hr', hg, hv, hca, hrm, hrl, hu⟩
  have hrr : r' = r := Option.some.inj (hr'.symm.trans hroot)
  subst hrr
  have main : ∀ k, ∀ n, n ∈ u.index → n.block_num = k → Desc s.index tid n := by
    intro k
    induction k using Nat.strong_induction_on with
    | _ k ih =>
      intro n hnu hk
      have hnu2 : n ∈ s₂.index := by
        rw [hu] at hnu
        exact hnu
      have hns1 : n ∈ ({ s with
          index := s.index.filter (fun n => !(n.id == tid)) } : ForkDB).index :=
        remove_loop_subset btr _ n (by rw [hrl]; exact hnu2)
      have hns : n ∈ s.index := List.mem_of_mem_filter hns1
      rcases hpr n hns with hpr_root | ⟨p, hp_mem, hp_id⟩
      · exact absurd (hpr_root ▸ hrm)
          (remove_loop_no_seed_parent btr _ s₂ hrl n hnu2)
      · by_cases hptid : p.id = tid
        · exact Desc.child hns (by rw [← hp_id]; exact hptid)
        · have hps1 : p ∈ ({ s with
              index := s.index.filter (fun n => !(n.id == tid)) } : ForkDB).index := by
            refine List.mem_filter.mpr ⟨hp_mem, by simpa using hptid⟩
          have hps2 : p ∈ s₂.index :=
            remove_loop_parent_kept btr _ s₂ hrl n p hnu2 hps1 hp_id
          have hpu : p ∈ u.index := by
            rw [hu]
            exact hps2
          have hlt : p.block_num < n.block_num := by
            have := hbn n hns p hp_mem hp_id
            omega
          exact Desc.step (ih p.block_num (by omega) p hpu rfl) hns hp_id.symm
  exact fun n hnmem => main n.block_num n hnmem rfl

/-! ### Claim C7 -/

/-- Claim C7 (amended): `advance_root(tid)` requires the root to be set and
the node `tid` to be present in the index and valid, failing `RootNotSet`
when the root is unset, `NotFound` when the node is absent, and the
dedicated not-yet-validated error — not `NotFound` as the original claim
says — when it is present but not valid, in each case without mutation;
when it succeeds, `root` becomes the index node `tid` with none of its
fields mutated, `tid` is no longer in the index, and every remaining node
is a descendant of the new root. -/
theorem advance_root_spec (s : ForkDB) (tid : Nat) :
    (s.root = none → advance_root_impl s tid = (s, some Err.rootNotSet)) ∧
    (s.root ≠ none → get_block_impl s tid = none →
      advance_root_impl s tid = (s, some Err.notFound)) ∧
    (s.root ≠ none → ∀ nr, get_block_impl s tid = some nr → nr.valid = false →
      advance_root_impl s tid = (s, some Err.notValidated)) ∧
    (∀ r, s.root = some r → BnSucc s.index →
      (∀ n ∈ s.index, n.previous = r.id ∨ ∃ p ∈ s.index, p.id = n.previous) →
      (advance_root_impl s tid).2 = none →
      ∃ nr, get_block_impl s tid = some nr ∧ nr.valid = true ∧
        (advance_root_impl s tid).1.root = some nr ∧
        (∀ n ∈ (advance_root_impl s tid).1.index, n.id ≠ tid) ∧
        (∀ n ∈ (advance_root_impl s tid).1.index, Desc s.index tid n)) := by
  refine ⟨?_, ?_, ?_, ?_⟩
  · intro hr
    unfold advance_root_impl
    rw [hr]
  · intro hr hg
    unfold advance_root_impl
    cases hrr : s.root with
    | none => exact absurd hrr hr
    | some r =>
      dsimp only
      rw [hg]
  · intro hr nr hg hv
    unfold advance_root_impl
    cases hrr : s.root with
    | none => exact absurd hrr hr
    | some r =>
      dsimp only
      rw [hg]
      dsimp only
      rw [if_pos hv]
  · intro r hroot hbn hpr hnone
    have h : advance_root_impl s tid = ((advance_root_impl s tid).1, none) := by
      rw [← hnone]
    rcases advance_root_ok_elim h with ⟨r', nr, btr, s₂, hr', hg, hv, hca, hrm, hrl, hu⟩
    refine ⟨nr, hg, hv, ?_, ?_, advance_root_desc s _ tid r hroot hbn hpr h⟩
    · rw [hu]
    · intro n hnu
      have hnu2 : n ∈ s₂.index := by
        rw [hu] at hnu
        exact hnu
      have hns1 : n ∈ ({ s with
          index := s.index.filter (fun n => !(n.id == tid)) } : ForkDB).index :=
        remove_loop_subset btr _ n (by rw [hrl]; exact hnu2)
      have := (List.mem_filter.mp hns1).2
      simpa using this

/-- Witness for `advance_root_spec`: a concrete successful root
advancement that prunes the sibling branch. -/
theorem advance_root_spec_witness :
    ∃ nr, get_block_impl ⟨some ⟨0, 0, 0, 0, true⟩, some ⟨1, 0, 1, 0, true⟩,
        [⟨1, 0, 1, 0, true⟩, ⟨2, 0, 1, 0, false⟩]⟩ 1 = some nr ∧ nr.valid = true ∧
      (advance_root_impl ⟨some ⟨0, 0, 0, 0, true⟩, some ⟨1, 0, 1, 0, true⟩,
        [⟨1, 0, 1, 0, true⟩, ⟨2, 0, 1, 0, false⟩]⟩ 1).1.root = some nr ∧
      (∀ n ∈ (advance_root_impl ⟨some ⟨0, 0, 0, 0, true⟩, some ⟨1, 0, 1, 0, true⟩,
        [⟨1, 0, 1, 0, true⟩, ⟨2, 0, 1, 0, false⟩]⟩ 1).1.index, n.id ≠ 1) ∧
      (∀ n ∈ (advance_root_impl ⟨some ⟨0, 0, 0, 0, true⟩, some ⟨1, 0, 1, 0, true⟩,
        [⟨1, 0, 1, 0, true⟩, ⟨2, 0, 1, 0, false⟩]⟩ 1).1.index,
        Desc [⟨1, 0, 1, 0, true⟩, ⟨2, 0, 1, 0, false⟩] 1 n) :=
  (advance_root_spec ⟨some ⟨0, 0, 0, 0, true⟩, some ⟨1, 0, 1, 0, true⟩,
      [⟨1, 0, 1, 0, true⟩, ⟨2, 0, 1, 0, false⟩]⟩ 1).2.2.2 ⟨0, 0, 0, 0, true⟩ rfl
    (by decide) (by decide) (by decide)

/-! ### Walks along a branch -/

theorem get_block_mem {s : ForkDB} {i : Nat} {b : BlockState}
    (h : get_block_impl s i = some b) : b ∈ s.index ∧ b.id = i := by
  unfold get_block_impl at h
  exact ⟨List.mem_of_find?_eq_some h, by simpa using List.find?_some h⟩

theorem get_block_of_mem {s : ForkDB} (hn : IdsNodup s.index) {x : BlockState}
    (hx : x ∈ s.index) : get_block_impl s x.id = some x := by
  unfold get_block_impl
  cases hf : s.index.find? (fun n => n.id == x.id) with
  | none =>
    rw [List.find?_eq_none] at hf
    exact absurd (by simp : (fun n => n.id == x.id) x = true) (hf x hx)
  | some e =>
    have hmem := List.mem_of_find?_eq_some hf
    have hid : e.id = x.id := by simpa using List.find?_some hf
    rw [id_inj hn hmem hx hid]

/-- A lookup of `i` fails exactly when no index entry has id `i`. -/
theorem get_block_none {s : ForkDB} {i : Nat} :
    get_block_impl s i = none ↔ ∀ n ∈ s.index, n.id ≠ i := by
  unfold get_block_impl
  rw [List.find?_eq_none]
  constructor
  · intro h n hn
    simpa using h n hn
  · intro h n hn
    simpa using h n hn

theorem filter_bn_length_lt {s : ForkDB} {b p : BlockState}
    (hb : b ∈ s.index) (hlt : p.block_num < b.block_num) :
    (s.index.filter (fun n => n.block_num ≤ p.block_num)).length <
      (s.index.filter (fun n => n.block_num ≤ b.block_num)).length := by
  have hsub : (s.index.filter (fun n => n.block_num ≤ p.block_num)).Sublist
      (s.index.filter (fun n => n.block_num ≤ b.block_num)) :=
    List.monotone_filter_right s.index (fun a ha => by
      simp only [decide_eq_true_eq] at ha ⊢
      omega)
  rcases Nat.lt_or_ge (s.index.filter (fun n => n.block_num ≤ p.block_num)).length
      (s.index.filter (fun n => n.block_num ≤ b.block_num)).length with h | h
  · exact h
  · exfalso
    have hlen : (s.index.filter (fun n => n.block_num ≤ p.block_num)).length =
        (s.index.filter (fun n => n.block_num ≤ b.block_num)).length :=
      Nat.le_antisymm hsub.length_le h
    have heq := hsub.eq_of_length hlen
    have hbmem : b ∈ s.index.filter (fun n => n.block_num ≤ b.block_num) :=
      List.mem_filter.mpr ⟨hb, by simp⟩
    rw [← heq] at hbmem
    have := (List.mem_filter.mp hbmem).2
    simp only [decide_eq_true_eq] at this
    omega

/-- Characterization of the branch walk from an index node `b`: it
terminates and appends exactly the entries that are `b` or an ancestor of
`b` and respect the trim bound. -/
theorem fetch_branch_go_char (s : ForkDB) (hn : IdsNodup s.index)
    (hbn : BnSucc s.index) (trim : Nat) :
    ∀ (k : Nat) (b : BlockState), b ∈ s.index → b.block_num = k →
    ∀ (fuel : Nat) (acc : List BlockState),
      (s.index.filter (fun n => n.block_num ≤ b.block_num)).length < fuel →
      (fetch_branch_go s trim fuel (some b) acc).2 = none ∧
      (∀ x, x ∈ (fetch_branch_go s trim fuel (some b) acc).1 ↔
        (x ∈ acc ∨ (x ∈ s.index ∧ (x = b ∨ Desc s.index x.id b) ∧
          x.block_num ≤ trim))) := by
  intro k
  induction k using Nat.strong_induction_on with
  | _ k ih =>
    intro b hb hk fuel acc hfuel
    have hfuel1 : 1 ≤ fuel := by
      have hbf : b ∈ s.index.filter (fun n => n.block_num ≤ b.block_num) :=
        List.mem_filter.mpr ⟨hb, by simp⟩
      have := List.length_pos.mpr (List.ne_nil_of_mem hbf)
      omega
    obtain ⟨f, rfl⟩ : ∃ f, fuel = f + 1 := ⟨fuel - 1, by omega⟩
    have hstep : fetch_branch_go s trim (f + 1) (some b) acc =
        fetch_branch_go s trim f (get_block_impl s b.previous)
          (if b.block_num ≤ trim then acc ++ [b] else acc) := by
      simp only [fetch_branch_go]
    rw [hstep]
    cases hg : get_block_impl s b.previous with
    | none =>
      have hend : ∀ acc', fetch_branch_go s trim f none acc' = (acc', none) := by
        intro acc'
        cases f <;> simp [fetch_branch_go]
      rw [hend]
      refine ⟨rfl, ?_⟩
      intro x
      have hnodesc : x ∈ s.index → ¬ Desc s.index x.id b := by
        intro hxi hdesc
        rw [get_block_none] at hg
        cases hdesc with
        | child hm hp => exact hg x hxi hp.symm
        | step hdq hm hp => exact hg _ hdq.mem hp.symm
      constructor
      · intro hx
        by_cases htrim : b.block_num ≤ trim
        · rw [if_pos htrim] at hx
          rcases List.mem_append.mp hx with h' | h'
          · exact Or.inl h'
          · have hxb : x = b := by simpa using h'
            exact Or.inr ⟨hxb ▸ hb, Or.inl hxb, hxb ▸ htrim⟩
        · rw [if_neg htrim] at hx
          exact Or.inl hx
      · intro hx
        rcases hx with h' | ⟨hxi, hxb | hxd, htr⟩
        · by_cases htrim : b.block_num ≤ trim
          · rw [if_pos htrim]
            exact List.mem_append.mpr (Or.inl h')
          · rw [if_neg htrim]
            exact h'
        · subst hxb
          rw [if_pos htr]
          exact List.mem_append.mpr (Or.inr (by simp))
        · exact absurd hxd (hnodesc hxi)
    | some p =>
      have hpmem := (get_block_mem hg).1
      have hpid := (get_block_mem hg).2
      have hplt : p.block_num < b.block_num := by
        have := hbn b hb p hpmem hpid
        omega
      have hpfuel : (s.index.filter (fun n => n.block_num ≤ p.block_num)).length < f := by
        have := filter_bn_length_lt hb hplt
        omega
      have hIH := ih p.block_num (by omega) p hpmem rfl f
        (if b.block_num ≤ trim then acc ++ [b] else acc) hpfuel
      refine ⟨hIH.1, ?_⟩
      intro x
      rw [hIH.2 x]
      have hconv : x ∈ s.index →
          ((x = p ∨ Desc s.index x.id p) ↔ Desc s.index x.id b) := by
        intro hxi
        constructor
        · intro hx
          rcases hx with hxp | hxd
          · exact Desc.child hb (by rw [hxp]; exact hpid.symm)
          · exact Desc.step hxd hb hpid.symm
        · intro hx
          cases hx with
          | child hm hp => exact Or.inl (id_inj hn hxi hpmem (hp.symm.trans hpid.symm))
          | step hdq hm hp =>
            have hqp := id_inj hn hdq.mem hpmem (hp.symm.trans hpid.symm)
            exact Or.inr (hqp ▸ hdq)
      constructor
      · intro hx
        rcases hx with hacc | ⟨hxi, hxpd, htr⟩
        · by_cases htrim : b.block_num ≤ trim
          · rw [if_pos htrim] at hacc
            rcases List.mem_append.mp hacc with h' | h'
            · exact Or.inl h'
            · have hxb : x = b := by simpa using h'
              exact Or.inr ⟨hxb ▸ hb, Or.inl hxb, hxb ▸ htrim⟩
          · rw [if_neg htrim] at hacc
            exact Or.inl hacc
        · exact Or.inr ⟨hxi, Or.inr ((hconv hxi).mp hxpd), htr⟩
      · intro hx
        rcases hx with hacc | ⟨hxi, hxbd, htr⟩
        · left
          by_cases htrim : b.block_num ≤ trim
          · rw [if_pos htrim]
            exact List.mem_append.mpr (Or.inl hacc)
          · rw [if_neg htrim]
            exact hacc
        · rcases hxbd with hxb | hxd
          · left
            subst hxb
            rw [if_pos htr]
            exact List.mem_append.mpr (Or.inr (by simp))
          · exact Or.inr ⟨hxi, (hconv hxi).mpr hxd, htr⟩

/-- The branch walk emits strictly descending block numbers. -/
theorem fetch_branch_go_sorted (s : ForkDB) (hbn : BnSucc s.index) (trim : Nat) :
    ∀ (fuel : Nat) (cur : Option BlockState) (acc : List BlockState),
      (∀ b, cur = some b → b ∈ s.index) →
      (∀ b, cur = some b → ∀ a ∈ acc, b.block_num < a.block_num) →
      List.Pairwise (fun a c => c.block_num < a.block_num) acc →
      List.Pairwise (fun a c => c.block_num < a.block_num)
        (fetch_branch_go s trim fuel cur acc).1 := by
  intro fuel
  induction fuel with
  | zero =>
    intro cur acc hmem hcur hacc
    cases cur <;> simpa [fetch_branch_go] using hacc
  | succ fuel ih =>
    intro cur acc hmem hcur hacc
    cases cur with
    | none => simpa [fetch_branch_go] using hacc
    | some b =>
      simp only [fetch_branch_go]
      apply ih
      · intro p hp
        exact (get_block_mem hp).1
      · intro p hp a ha
        have hplt : p.block_num < b.block_num := by
          have := hbn b (hmem b rfl) p (get_block_mem hp).1 (get_block_mem hp).2
          omega
        by_cases htrim : b.block_num ≤ trim
        · rw [if_pos htrim] at ha
          rcases List.mem_append.mp ha with h' | h'
          · exact lt_trans hplt (hcur b rfl a h')
          · have hab : a = b := by simpa using h'
            exact hab ▸ hplt
        · rw [if_neg htrim] at ha
          exact lt_trans hplt (hcur b rfl a ha)
      · by_cases htrim : b.block_num ≤ trim
        · rw [if_pos htrim, List.pairwise_append]
          refine ⟨hacc, by simp, ?_⟩
          intro a ha b' hb'
          have hb'b : b' = b := by simpa using hb'
          exact hb'b ▸ hcur b rfl a ha
        · rw [if_neg htrim]
          exact hacc

/-! ### Claim C9 -/

/-- Claim C9: `fetch_branch(h, trim_after)` returns exactly the nodes of
the branch from `h` toward the root that lie in the index (the root is
excluded, as it is not in the index) and whose `block_num` is at most
`trim_after`, ordered by descending `block_num`; with `trim_after` equal to
the maximal u32 value it returns the full chain from `h` down to and
exclusive of the root. -/
theorem fetch_branch_spec (s : ForkDB) (h trim : Nat)
    (hn : IdsNodup s.index) (hbn : BnSucc s.index) :
    (fetch_branch_impl s h trim).2 = none ∧
    (∀ x, x ∈ (fetch_branch_impl s h trim).1 ↔
      (∃ he, get_block_impl s h = some he ∧ x ∈ s.index ∧
        (x = he ∨ Desc s.index x.id he) ∧ x.block_num ≤ trim)) ∧
    List.Pairwise (fun a c => c.block_num < a.block_num)
      (fetch_branch_impl s h trim).1 ∧
    ((∀ n ∈ s.index, n.block_num < 2 ^ 32) → trim = 2 ^ 32 - 1 →
      ∀ x, x ∈ (fetch_branch_impl s h trim).1 ↔
        (∃ he, get_block_impl s h = some he ∧ x ∈ s.index ∧
          (x = he ∨ Desc s.index x.id he))) := by
  unfold fetch_branch_impl
  cases hg : get_block_impl s h with
  | none =>
    have hend : ∀ acc', fetch_branch_go s trim (s.index.length + 1) none acc' =
        (acc', none) := by
      intro acc'
      simp [fetch_branch_go]
    rw [hend]
    refine ⟨rfl, by simp, by simp, by simp⟩
  | some he =>
    have hhe := (get_block_mem hg).1
    have hchar := fetch_branch_go_char s hn hbn trim he.block_num he hhe rfl
      (s.index.length + 1) [] (by
        have := List.length_filter_le (fun n => n.block_num ≤ he.block_num) s.index
        omega)
    have hmemchar : ∀ x, x ∈ (fetch_branch_go s trim (s.index.length + 1)
        (some he) []).1 ↔
        (∃ he', (some he : Option BlockState) = some he' ∧ x ∈ s.index ∧
          (x = he' ∨ Desc s.index x.id he') ∧ x.block_num ≤ trim) := by
      intro x
      rw [hchar.2 x]
      constructor
      · intro hx
        rcases hx with hx | ⟨hxi, hxd, htr⟩
        · simp at hx
        · exact ⟨he, rfl, hxi, hxd, htr⟩
      · intro ⟨he', hge', hxi, hxd, htr⟩
        have heq : he' = he := (Option.some.inj hge').symm
        exact Or.inr ⟨hxi, heq ▸ hxd, htr⟩
    refine ⟨hchar.1, hmemchar, ?_, ?_⟩
    · exact fetch_branch_go_sorted s hbn trim (s.index.length + 1) (some he) []
        (fun b hb => (Option.some.inj hb) ▸ hhe) (fun b hb a ha => absurd ha (by simp))
        List.Pairwise.nil
    · intro hbound htrim x
      rw [hmemchar x]
      constructor
      · intro ⟨he', h1, h2, h3, _⟩
        exact ⟨he', h1, h2, h3⟩
      · intro ⟨he', h1, h2, h3⟩
        refine ⟨he', h1, h2, h3, ?_⟩
        have := hbound x h2
        omega

/-- Witness for `fetch_branch_spec` on a concrete two-node chain with the
maximal u32 trim bound. -/
theorem fetch_branch_spec_witness :
    (fetch_branch_impl ⟨some ⟨0, 0, 0, 0, true⟩, some ⟨2, 1, 2, 0, true⟩,
        [⟨1, 0, 1, 0, true⟩, ⟨2, 1, 2, 0, true⟩]⟩ 2 (2 ^ 32 - 1)).2 = none ∧
    List.Pairwise (fun a c => c.block_num < a.block_num)
      (fetch_branch_impl ⟨some ⟨0, 0, 0, 0, true⟩, some ⟨2, 1, 2, 0, true⟩,
        [⟨1, 0, 1, 0, true⟩, ⟨2, 1, 2, 0, true⟩]⟩ 2 (2 ^ 32 - 1)).1 :=
  ⟨(fetch_branch_spec ⟨some ⟨0, 0, 0, 0, true⟩, some ⟨2, 1, 2, 0, true⟩,
      [⟨1, 0, 1, 0, true⟩, ⟨2, 1, 2, 0, true⟩]⟩ 2 (2 ^ 32 - 1)
      (by decide) (by decide)).1,
   (fetch_branch_spec ⟨some ⟨0, 0, 0, 0, true⟩, some ⟨2, 1, 2, 0, true⟩,
      [⟨1, 0, 1, 0, true⟩, ⟨2, 1, 2, 0, true⟩]⟩ 2 (2 ^ 32 - 1)
      (by decide) (by decide)).2.2.1⟩

/-! ### Two-head branch intersection -/

/-- Descendants of the root id sit strictly above the root, given the
height discipline on both kinds of links. -/
theorem desc_bn_root {s : ForkDB} {r : BlockState} (hbn : BnSucc s.index)
    (hbnr : ∀ n ∈ s.index, n.previous = r.id → n.block_num = r.block_num + 1)
    {n : BlockState} (h : Desc s.index r.id n) : r.block_num < n.block_num := by
  induction h with
  | child hm hp =>
    have := hbnr _ hm hp
    omega
  | step hd hm hp ih =>
    have := hbn _ hm _ hd.mem hp.symm
    omega

/-- Every index node sits strictly above the root. -/
theorem bn_gt_root {s : ForkDB} {r : BlockState} (hbn : BnSucc s.index)
    (hrn : ∀ n ∈ s.index, n.id ≠ r.id)
    (hpr : ∀ n ∈ s.index, n.previous = r.id ∨ ∃ p ∈ s.index, p.id = n.previous)
    (hbnr : ∀ n ∈ s.index, n.previous = r.id → n.block_num = r.block_num + 1) :
    ∀ n ∈ s.index, r.block_num < n.block_num := by
  have main : ∀ k n, n ∈ s.index → n.block_num = k → r.block_num < n.block_num := by
    intro k
    induction k using Nat.strong_induction_on with
    | _ k ih =>
      intro n hn hk
      rcases hpr n hn with hp | ⟨p, hpmem, hpid⟩
      · have := hbnr n hn hp
        omega
      · have hstep := hbn n hn p hpmem hpid
        have := ih p.block_num (by omega) p hpmem rfl
        omega
  exact fun n hn => main n.block_num n hn rfl

/-- Characterization of one alignment loop of `fetch_branch_from_impl`:
starting from a tree node `b` with a target height at least the root's, the
loop succeeds, ends on the branch node at height `min b.block_num target`,
and pushes the strictly higher branch prefix, tip first and linked. -/
theorem descend_to_spec (s : ForkDB) (r : BlockState)
    (hn : IdsNodup s.index) (hbn : BnSucc s.index)
    (hrn : ∀ n ∈ s.index, n.id ≠ r.id)
    (hpr : ∀ n ∈ s.index, n.previous = r.id ∨ ∃ p ∈ s.index, p.id = n.previous)
    (hbnr : ∀ n ∈ s.index, n.previous = r.id → n.block_num = r.block_num + 1) :
    ∀ (k : Nat) (b : BlockState), (b = r ∨ b ∈ s.index) → b.block_num = k →
    ∀ (target : Nat), r.block_num ≤ target →
    ∀ (fuel : Nat) (acc : List BlockState),
      (s.index.filter (fun n => n.block_num ≤ b.block_num)).length < fuel ∨
        b.block_num ≤ target →
      ∃ b' l, descend_to s r target fuel b acc = .ok (b', acc ++ l) ∧
        (b' = r ∨ b' ∈ s.index) ∧
        (∀ x ∈ l, x ∈ s.index) ∧
        (∀ x ∈ l, target < x.block_num ∧ x.block_num ≤ b.block_num) ∧
        List.Chain' (fun x y => y.id = x.previous) (l ++ [b']) ∧
        ((l = [] ∧ b' = b) ∨ l.head? = some b) ∧
        b'.block_num = min b.block_num target := by
  intro k
  induction k using Nat.strong_induction_on with
  | _ k ih =>
    intro b hb hk target htarget fuel acc hfuel
    by_cases hstop : b.block_num ≤ target
    · refine ⟨b, [], ?_, hb, by simp, by simp, by simp, Or.inl ⟨rfl, rfl⟩, by omega⟩
      cases fuel with
      | zero =>
        simp only [descend_to]
        rw [if_neg (by omega)]
        simp
      | succ f =>
        simp only [descend_to]
        rw [if_neg (by omega)]
        simp
    · have hbidx : b ∈ s.index := by
        rcases hb with hbr | hbi
        · subst hbr
          omega
        · exact hbi
      have hfuel' : (s.index.filter (fun n => n.block_num ≤ b.block_num)).length < fuel := by
        rcases hfuel with h | h
        · exact h
        · omega
      have hfuel1 : 1 ≤ fuel := by
        have hbf : b ∈ s.index.filter (fun n => n.block_num ≤ b.block_num) :=
          List.mem_filter.mpr ⟨hbidx, by simp⟩
        have := List.length_pos.mpr (List.ne_nil_of_mem hbf)
        omega
      obtain ⟨f, rfl⟩ : ∃ f, fuel = f + 1 := ⟨fuel - 1, by omega⟩
      have hstep : descend_to s r target (f + 1) b acc =
          (match (if b.previous = r.id then some r else get_block_impl s b.previous) with
           | some b' => descend_to s r target f b' (acc ++ [b])
           | none => .error .notFound) := by
        simp only [descend_to]
        rw [if_pos (by omega)]
      by_cases hprev : b.previous = r.id
      · have hbn1 : b.block_num = r.block_num + 1 := hbnr b hbidx hprev
        rw [hstep, if_pos hprev]
        have hnext := ih r.block_num (by omega) r (Or.inl rfl) rfl target htarget f
          (acc ++ [b]) (Or.inr htarget)
        rcases hnext with ⟨b', l, heq, hb', hlidx, hlbn, hchain, hhead, hbn'⟩
        have hrl : l = [] ∧ b' = r := by
          rcases hhead with ⟨h1, h2⟩ | hh
          · exact ⟨h1, h2⟩
          · exfalso
            cases l with
            | nil => simp at hh
            | cons x xs =>
              have hx : x = r := by simpa using hh
              have := (hlbn x (List.mem_cons_self x xs)).1
              subst hx
              omega
        rcases hrl with ⟨hl0, hb'r⟩
        subst hl0
        rw [hb'r] at heq
        refine ⟨r, [b], by simpa using heq, Or.inl rfl, by simpa using hbidx, ?_, ?_, ?_, ?_⟩
        · intro x hx
          have hxb : x = b := by simpa using hx
          subst hxb
          omega
        · simp only [List.cons_append, List.nil_append]
          exact List.chain'_cons.mpr ⟨by simpa using hprev.symm, by simp⟩
        · exact Or.inr rfl
        · omega
      · rcases hpr b hbidx with hp | ⟨p, hpmem, hpid⟩
        · exact absurd hp hprev
        · have hpbn : b.block_num = p.block_num + 1 := hbn b hbidx p hpmem hpid
          have hg : get_block_impl s b.previous = some p := by
            rw [← hpid]
            exact get_block_of_mem hn hpmem
          rw [hstep, if_neg hprev, hg]
          have hpfuel : (s.index.filter (fun n => n.block_num ≤ p.block_num)).length < f := by
            have := filter_bn_length_lt hbidx (show p.block_num < b.block_num by omega)
            omega
          have hnext := ih p.block_num (by omega) p (Or.inr hpmem) rfl target htarget f
            (acc ++ [b]) (Or.inl hpfuel)
          rcases hnext with ⟨b', l, heq, hb', hlidx, hlbn, hchain, hhead, hbn'⟩
          refine ⟨b', b :: l, by simpa using heq, hb', ?_, ?_, ?_, Or.inr rfl, by omega⟩
          · intro x hx
            rcases List.mem_cons.mp hx with hxb | hxl
            · exact hxb ▸ hbidx
            · exact hlidx x hxl
          · intro x hx
            rcases List.mem_cons.mp hx with hxb | hxl
            · subst hxb
              omega
            · have := hlbn x hxl
              omega
          · rw [List.cons_append]
            refine List.chain'_cons'.mpr ⟨?_, hchain⟩
            intro y hy
            rcases hhead with ⟨hl0, hb'b⟩ | hh
            · subst hl0
              have hyb : b' = y := by simpa using hy
              rw [← hyb, hb'b]
              exact hpid
            · cases l with
              | nil => simp at hh
              | cons z zs =>
                have hz : z = p := by simpa using hh
                have hyz : z = y := by simpa using hy
                rw [← hyz, hz]
                exact hpid

/-- Characterization of the common-parent loop of `fetch_branch_from_impl`:
from two distinct index nodes at the same height, the loop succeeds, ends on
two distinct index nodes sharing a `previous`, and pushes the two walked
prefixes, tip first, linked, height-bounded, and with no id shared between
the two sides. -/
theorem climb_both_spec (s : ForkDB) (r : BlockState)
    (hn : IdsNodup s.index) (hbn : BnSucc s.index)
    (hrn : ∀ n ∈ s.index, n.id ≠ r.id)
    (hpr : ∀ n ∈ s.index, n.previous = r.id ∨ ∃ p ∈ s.index, p.id = n.previous)
    (hbnr : ∀ n ∈ s.index, n.previous = r.id → n.block_num = r.block_num + 1) :
    ∀ (k : Nat) (a b : BlockState), a ∈ s.index → b ∈ s.index →
      a.block_num = b.block_num → a.block_num = k → a.id ≠ b.id →
    ∀ (fuel : Nat) (acc₁ acc₂ : List BlockState),
      (s.index.filter (fun n => n.block_num ≤ a.block_num)).length < fuel →
      ∃ a' b' l₁ l₂,
        climb_both s fuel a b acc₁ acc₂ = .ok (a', b', acc₁ ++ l₁, acc₂ ++ l₂) ∧
        a' ∈ s.index ∧ b' ∈ s.index ∧ a'.previous = b'.previous ∧ a'.id ≠ b'.id ∧
        (∀ x ∈ l₁ ++ [a'], x ∈ s.index ∧ x.block_num ≤ a.block_num) ∧
        (∀ y ∈ l₂ ++ [b'], y ∈ s.index ∧ y.block_num ≤ b.block_num) ∧
        List.Chain' (fun x y => y.id = x.previous) (l₁ ++ [a']) ∧
        List.Chain' (fun x y => y.id = x.previous) (l₂ ++ [b']) ∧
        (l₁ ++ [a']).head? = some a ∧ (l₂ ++ [b']).head? = some b ∧
        (∀ x ∈ l₁ ++ [a'], ∀ y ∈ l₂ ++ [b'], x.id ≠ y.id) := by
  intro k
  induction k using Nat.strong_induction_on with
  | _ k ih =>
    intro a b hamem hbmem habn hak hab fuel acc₁ acc₂ hfuel
    have hfuel1 : 1 ≤ fuel := by
      have haf : a ∈ s.index.filter (fun n => n.block_num ≤ a.block_num) :=
        List.mem_filter.mpr ⟨hamem, by simp⟩
      have := List.length_pos.mpr (List.ne_nil_of_mem haf)
      omega
    obtain ⟨f, rfl⟩ : ∃ f, fuel = f + 1 := ⟨fuel - 1, by omega⟩
    by_cases hstop : a.previous = b.previous
    · refine ⟨a, b, [], [], ?_, hamem, hbmem, hstop, hab, ?_, ?_, by simp, by simp,
        by simp, by simp, ?_⟩
      · simp only [climb_both]
        rw [if_pos hstop]
        simp
      · intro x hx
        have hxa : x = a := by simpa using hx
        subst hxa
        exact ⟨hamem, le_refl _⟩
      · intro y hy
        have hyb : y = b := by simpa using hy
        subst hyb
        exact ⟨hbmem, le_refl _⟩
      · intro x hx y hy
        have hxa : x = a := by simpa using hx
        have hyb : y = b := by simpa using hy
        subst hxa
        subst hyb
        exact hab
    · have hanr : a.previous ≠ r.id := by
        intro har
        have habn1 : a.block_num = r.block_num + 1 := hbnr a hamem har
        rcases hpr b hbmem with hbr | ⟨q, hqmem, hqid⟩
        · exact hstop (har.trans hbr.symm)
        · have hq : b.block_num = q.block_num + 1 := hbn b hbmem q hqmem hqid
          have := bn_gt_root hbn hrn hpr hbnr q hqmem
          omega
      have hbnr' : b.previous ≠ r.id := by
        intro hbr
        have hbbn1 : b.block_num = r.block_num + 1 := hbnr b hbmem hbr
        rcases hpr a hamem with har | ⟨p, hpmem, hpid⟩
        · exact hstop (har.trans hbr.symm)
        · have hp : a.block_num = p.block_num + 1 := hbn a hamem p hpmem hpid
          have := bn_gt_root hbn hrn hpr hbnr p hpmem
          omega
      rcases hpr a hamem with har | ⟨p, hpmem, hpid⟩
      · exact absurd har hanr
      rcases hpr b hbmem with hbr | ⟨q, hqmem, hqid⟩
      · exact absurd hbr hbnr'
      have hpbn : a.block_num = p.block_num + 1 := hbn a hamem p hpmem hpid
      have hqbn : b.block_num = q.block_num + 1 := hbn b hbmem q hqmem hqid
      have hga : get_block_impl s a.previous = some p := by
        rw [← hpid]
        exact get_block_of_mem hn hpmem
      have hgb : get_block_impl s b.previous = some q := by
        rw [← hqid]
        exact get_block_of_mem hn hqmem
      have hpq : p.id ≠ q.id := by
        rw [hpid, hqid]
        exact hstop
      have hpfuel : (s.index.filter (fun n => n.block_num ≤ p.block_num)).length < f := by
        have := filter_bn_length_lt hamem (show p.block_num < a.block_num by omega)
        omega
      have hnext := ih p.block_num (by omega) p q hpmem hqmem (by omega) rfl hpq f
        (acc₁ ++ [a]) (acc₂ ++ [b]) hpfuel
      rcases hnext with ⟨a', b', l₁, l₂, heq, ha', hb', hprev', hab', hmem₁, hmem₂,
        hch₁, hch₂, hhd₁, hhd₂, hdisj⟩
      have hstep : climb_both s (f + 1) a b acc₁ acc₂ =
          climb_both s f p q (acc₁ ++ [a]) (acc₂ ++ [b]) := by
        simp only [climb_both]
        rw [if_neg hstop, hga, hgb]
      refine ⟨a', b', a :: l₁, b :: l₂, ?_, ha', hb', hprev', hab', ?_, ?_, ?_, ?_,
        by simp, by simp, ?_⟩
      · rw [hstep, heq]
        simp
      · intro x hx
        rcases List.mem_cons.mp hx with hxa | hxl
        · subst hxa
          exact ⟨hamem, le_refl _⟩
        · have := hmem₁ x hxl
          exact ⟨this.1, by omega⟩
      · intro y hy
        rcases List.mem_cons.mp hy with hyb | hyl
        · subst hyb
          exact ⟨hbmem, le_refl _⟩
        · have := hmem₂ y hyl
          exact ⟨this.1, by omega⟩
      · rw [List.cons_append]
        refine List.chain'_cons'.mpr ⟨?_, hch₁⟩
        intro z hz
        have : (l₁ ++ [a']).head? = some z := hz
        rw [hhd₁] at this
        have hzp : p = z := by simpa using this
        rw [← hzp, hpid]
      · rw [List.cons_append]
        refine List.chain'_cons'.mpr ⟨?_, hch₂⟩
        intro z hz
        have : (l₂ ++ [b']).head? = some z := hz
        rw [hhd₂] at this
        have hzq : q = z := by simpa using this
        rw [← hzq, hqid]
      · intro x hx y hy
        rcases List.mem_cons.mp hx with hxa | hxl
        · rcases List.mem_cons.mp hy with hyb | hyl
          · subst hxa
            subst hyb
            exact hab
          · subst hxa
            have hy2 := hmem₂ y hyl
            intro hid
            have := id_inj hn hamem hy2.1 hid
            subst this
            omega
        · rcases List.mem_cons.mp hy with hyb | hyl
          · subst hyb
            have hx2 := hmem₁ x hxl
            intro hid
            have := id_inj hn hx2.1 hbmem hid
            subst this
            omega
          · exact hdisj x hxl y hyl

/-- A resolved tip is the root or an index entry. -/
theorem resolve_tip_mem {s : ForkDB} {r t : BlockState} {i : Nat}
    (h : resolve_tip s r i = some t) : t = r ∨ t ∈ s.index := by
  unfold resolve_tip at h
  split at h
  · exact Or.inl (by injection h with h; exact h.symm)
  · exact Or.inr (get_block_mem h).1

/-- Gluing two linked segments that overlap in their junction element. -/
theorem chain'_glue {α : Type} {R : α → α → Prop} (xs ys : List α) (m : α)
    (h₁ : List.Chain' R (xs ++ [m])) (h₂ : List.Chain' R ys)
    (hh : ys.head? = some m) : List.Chain' R (xs ++ ys) := by
  rcases List.chain'_append.mp h₁ with ⟨hxs, -, hlink⟩
  refine List.chain'_append.mpr ⟨hxs, h₂, ?_⟩
  intro x hx y hy
  rw [hh] at hy
  have hym : m = y := by simpa using hy
  rw [← hym]
  exact hlink x hx m (by simp)

/-- Extending a linked segment by one linked element at the end. -/
theorem chain'_snoc_link {α : Type} {R : α → α → Prop} (l : List α) (m z : α)
    (h : List.Chain' R (l ++ [m])) (hz : R m z) :
    List.Chain' R ((l ++ [m]) ++ [z]) := by
  refine List.chain'_append.mpr ⟨h, List.chain'_singleton z, ?_⟩
  intro x hx y hy
  have hx' : m = x := by
    rw [List.getLast?_concat] at hx
    simpa using hx
  have hy' : z = y := by simpa using hy
  rw [← hy', ← hx']
  exact hz

/-- `l` is the branch segment from `tip` (inclusive, listed first) down to
`stop` (exclusive): all entries are index nodes, consecutive entries follow
the `previous` link, the last entry's `previous` is `stop`'s id, and the
first entry is `tip` (an empty segment means `tip = stop`). -/
def SegFrom (s : ForkDB) (tip stop : BlockState) (l : List BlockState) : Prop :=
  (∀ x ∈ l, x ∈ s.index) ∧
  List.Chain' (fun x y => y.id = x.previous) (l ++ [stop]) ∧
  ((l = [] ∧ tip = stop) ∨ l.head? = some tip)

/-- C8: with the root set and a well-formed tree (unique ids, every index
node's `previous` resolving to the root or another index node, heights
increasing by one along links), `fetch_branch_from(first, second)` fails
with NotFound when either tip fails to resolve; on two resolved tips it
succeeds and returns the two branch segments from the tips down to — but
excluding — one common stop node, their lowest common ancestor (the two
segments share no id); two equal resolvable tips give two empty branches. -/
theorem fetch_branch_from_spec (s : ForkDB) (r : BlockState) (a b : Nat)
    (hroot : s.root = some r)
    (hn : IdsNodup s.index) (hbn : BnSucc s.index)
    (hrn : ∀ n ∈ s.index, n.id ≠ r.id)
    (hpr : ∀ n ∈ s.index, n.previous = r.id ∨ ∃ p ∈ s.index, p.id = n.previous)
    (hbnr : ∀ n ∈ s.index, n.previous = r.id → n.block_num = r.block_num + 1) :
    ((resolve_tip s r a = none ∨ resolve_tip s r b = none) →
        fetch_branch_from_impl s a b = .error .notFound) ∧
    (a = b → resolve_tip s r a ≠ none → fetch_branch_from_impl s a b = .ok ([], [])) ∧
    (∀ ta tb, resolve_tip s r a = some ta → resolve_tip s r b = some tb →
      ∃ l₁ l₂ lca, fetch_branch_from_impl s a b = .ok (l₁, l₂) ∧
        (lca = r ∨ lca ∈ s.index) ∧
        SegFrom s ta lca l₁ ∧ SegFrom s tb lca l₂ ∧
        (∀ x ∈ l₁, ∀ y ∈ l₂, x.id ≠ y.id)) := by
  have hge : ∀ t : BlockState, t = r ∨ t ∈ s.index → r.block_num ≤ t.block_num := by
    intro t ht
    rcases ht with h | h
    · rw [h]
    · exact le_of_lt (bn_gt_root hbn hrn hpr hbnr t h)
  refine ⟨?_, ?_, ?_⟩
  · intro h
    unfold fetch_branch_from_impl
    rw [hroot]
    dsimp only
    cases hfa : resolve_tip s r a with
    | none => rfl
    | some ta =>
      cases hfb : resolve_tip s r b with
      | none => rfl
      | some tb =>
        rcases h with h | h
        · rw [hfa] at h
          exact absurd h (by simp)
        · rw [hfb] at h
          exact absurd h (by simp)
  · intro hab hres
    subst hab
    cases hfa : resolve_tip s r a with
    | none => exact absurd hfa hres
    | some ta =>
      have hd : descend_to s r ta.block_num (s.index.length + 1) ta [] = .ok (ta, []) := by
        simp only [descend_to]
        rw [if_neg (lt_irrefl ta.block_num)]
      unfold fetch_branch_from_impl
      rw [hroot]
      dsimp only
      rw [hfa]
      dsimp only
      rw [hd]
      dsimp only
      rw [hd]
      dsimp only
      rw [if_pos rfl]
  · intro ta tb hta htb
    have hta' := resolve_tip_mem hta
    have htb' := resolve_tip_mem htb
    obtain ⟨fb₁, p₁, heq₁, hfb₁, hp₁idx, hp₁bn, hch₁, hhd₁, hfb₁bn⟩ :=
      descend_to_spec s r hn hbn hrn hpr hbnr ta.block_num ta hta' rfl tb.block_num
        (hge tb htb') (s.index.length + 1) []
        (Or.inl (by
          have := List.length_filter_le (fun n => n.block_num ≤ ta.block_num) s.index
          omega))
    obtain ⟨sb₁, p₂, heq₂, hsb₁, hp₂idx, hp₂bn, hch₂, hhd₂, hsb₁bn⟩ :=
      descend_to_spec s r hn hbn hrn hpr hbnr tb.block_num tb htb' rfl fb₁.block_num
        (hge fb₁ hfb₁) (s.index.length + 1) []
        (Or.inl (by
          have := List.length_filter_le (fun n => n.block_num ≤ tb.block_num) s.index
          omega))
    have heq₁' : descend_to s r tb.block_num (s.index.length + 1) ta [] = .ok (fb₁, p₁) := by
      simpa using heq₁
    have heq₂' : descend_to s r fb₁.block_num (s.index.length + 1) tb [] = .ok (sb₁, p₂) := by
      simpa using heq₂
    have hbneq : sb₁.block_num = fb₁.block_num := by omega
    have hkey : fetch_branch_from_impl s a b =
        (if fb₁.id = sb₁.id then Except.ok (p₁, p₂)
         else
           match climb_both s (s.index.length + 1) fb₁ sb₁ p₁ p₂ with
           | .error e => .error e
           | .ok (fb₂, sb₂, res₁', res₂') => .ok (res₁' ++ [fb₂], res₂' ++ [sb₂])) := by
      unfold fetch_branch_from_impl
      rw [hroot]
      dsimp only
      rw [hta, htb]
      dsimp only
      rw [heq₁']
      dsimp only
      rw [heq₂']
    by_cases hid : fb₁.id = sb₁.id
    · have hfs : fb₁ = sb₁ := by
        rcases hfb₁ with h1 | h1 <;> rcases hsb₁ with h2 | h2
        · rw [h1, h2]
        · exact absurd (by rw [← hid, h1] : sb₁.id = r.id) (hrn sb₁ h2)
        · exact absurd (by rw [hid, h2] : fb₁.id = r.id) (hrn fb₁ h1)
        · exact id_inj hn h1 h2 hid
      refine ⟨p₁, p₂, fb₁, by rw [hkey, if_pos hid], hfb₁, ?_, ?_, ?_⟩
      · refine ⟨hp₁idx, hch₁, ?_⟩
        rcases hhd₁ with ⟨h1, h2⟩ | h1
        · exact Or.inl ⟨h1, h2.symm⟩
        · exact Or.inr h1
      · refine ⟨hp₂idx, ?_, ?_⟩
        · rw [hfs]
          exact hch₂
        · rcases hhd₂ with ⟨h1, h2⟩ | h1
          · exact Or.inl ⟨h1, by rw [← h2, ← hfs]⟩
          · exact Or.inr h1
      · intro x hx y hy hxy
        have h1 := hp₁bn x hx
        have h2 := hp₂bn y hy
        have hxe := id_inj hn (hp₁idx x hx) (hp₂idx y hy) hxy
        subst hxe
        omega
    · have hfb₁i : fb₁ ∈ s.index := by
        rcases hfb₁ with h1 | h1
        · exfalso
          rcases hsb₁ with h2 | h2
          · exact hid (by rw [h1, h2])
          · have := bn_gt_root hbn hrn hpr hbnr sb₁ h2
            rw [h1] at hbneq
            omega
        · exact h1
      have hsb₁i : sb₁ ∈ s.index := by
        rcases hsb₁ with h2 | h2
        · exfalso
          have := bn_gt_root hbn hrn hpr hbnr fb₁ hfb₁i
          rw [h2] at hbneq
          omega
        · exact h2
      obtain ⟨fb₂, sb₂, l₁, l₂, heq₃, hfb₂, hsb₂, hprev, hne, hm₁, hm₂, hc₁, hc₂,
          hh₁, hh₂, hdis⟩ :=
        climb_both_spec s r hn hbn hrn hpr hbnr fb₁.block_num fb₁ sb₁ hfb₁i hsb₁i
          hbneq.symm rfl hid (s.index.length + 1) p₁ p₂
          (by
            have := List.length_filter_le (fun n => n.block_num ≤ fb₁.block_num) s.index
            omega)
      obtain ⟨lca, hlcamem, hlcaid⟩ : ∃ lca, (lca = r ∨ lca ∈ s.index) ∧
          lca.id = fb₂.previous := by
        rcases hpr fb₂ hfb₂ with h | ⟨p, hp, hpid⟩
        · exact ⟨r, Or.inl rfl, h.symm⟩
        · exact ⟨p, Or.inr hp, hpid⟩
      refine ⟨p₁ ++ (l₁ ++ [fb₂]), p₂ ++ (l₂ ++ [sb₂]), lca, ?_, hlcamem, ?_, ?_, ?_⟩
      · rw [hkey, if_neg hid, heq₃]
        dsimp only
        rw [List.append_assoc, List.append_assoc]
      · refine ⟨?_, ?_, ?_⟩
        · intro x hx
          rcases List.mem_append.mp hx with h | h
          · exact hp₁idx x h
          · exact (hm₁ x h).1
        · rw [List.append_assoc]
          refine chain'_glue p₁ ((l₁ ++ [fb₂]) ++ [lca]) fb₁ hch₁
            (chain'_snoc_link l₁ fb₂ lca hc₁ hlcaid) ?_
          cases hl : l₁ with
          | nil =>
            rw [hl] at hh₁
            simpa using hh₁
          | cons z zs =>
            rw [hl] at hh₁
            simpa using hh₁
        · right
          rcases hhd₁ with ⟨hp0, hfta⟩ | hh
          · rw [hp0, List.nil_append, hh₁, hfta]
          · cases hp : p₁ with
            | nil =>
              rw [hp] at hh
              simp at hh
            | cons z zs =>
              rw [hp] at hh
              simpa using hh
      · refine ⟨?_, ?_, ?_⟩
        · intro y hy
          rcases List.mem_append.mp hy with h | h
          · exact hp₂idx y h
          · exact (hm₂ y h).1
        · rw [List.append_assoc]
          refine chain'_glue p₂ ((l₂ ++ [sb₂]) ++ [lca]) sb₁ hch₂
            (chain'_snoc_link l₂ sb₂ lca hc₂ (by rw [hlcaid, hprev])) ?_
          cases hl : l₂ with
          | nil =>
            rw [hl] at hh₂
            simpa using hh₂
          | cons z zs =>
            rw [hl] at hh₂
            simpa using hh₂
        · right
          rcases hhd₂ with ⟨hp0, hstb⟩ | hh
          · rw [hp0, List.nil_append, hh₂, hstb]
          · cases hp : p₂ with
            | nil =>
              rw [hp] at hh
              simp at hh
            | cons z zs =>
              rw [hp] at hh
              simpa using hh
      · intro x hx y hy hxy
        rcases List.mem_append.mp hx with hx1 | hx2 <;>
          rcases List.mem_append.mp hy with hy1 | hy2
        · have h1 := hp₁bn x hx1
          have h2 := hp₂bn y hy1
          have hxe := id_inj hn (hp₁idx x hx1) (hp₂idx y hy1) hxy
          subst hxe
          omega
        · have h1 := hp₁bn x hx1
          have h2 := hm₂ y hy2
          have hxe := id_inj hn (hp₁idx x hx1) h2.1 hxy
          subst hxe
          omega
        · have h1 := hm₁ x hx2
          have h2 := hp₂bn y hy1
          have hxe := id_inj hn h1.1 (hp₂idx y hy1) hxy
          subst hxe
          omega
        · exact hdis x hx2 y hy2 hxy

/-- A concrete three-node tree used to instantiate `fetch_branch_from_spec`. -/
def fbfR : BlockState :=
  { id := 0, previous := 99, block_num := 5, irreversible_blocknum := 0, valid := true }

def fbfS : ForkDB :=
  { root := some fbfR,
    head := some { id := 3, previous := 1, block_num := 7,
                   irreversible_blocknum := 0, valid := true },
    index :=
      [{ id := 1, previous := 0, block_num := 6, irreversible_blocknum := 0, valid := true },
       { id := 2, previous := 0, block_num := 6, irreversible_blocknum := 0, valid := true },
       { id := 3, previous := 1, block_num := 7, irreversible_blocknum := 0, valid := true }] }

theorem fetch_branch_from_spec_witness :
    ((resolve_tip fbfS fbfR 3 = none ∨ resolve_tip fbfS fbfR 2 = none) →
        fetch_branch_from_impl fbfS 3 2 = .error .notFound) ∧
    (3 = 2 → resolve_tip fbfS fbfR 3 ≠ none → fetch_branch_from_impl fbfS 3 2 = .ok ([], [])) ∧
    (∀ ta tb, resolve_tip fbfS fbfR 3 = some ta → resolve_tip fbfS fbfR 2 = some tb →
      ∃ l₁ l₂ lca, fetch_branch_from_impl fbfS 3 2 = .ok (l₁, l₂) ∧
        (lca = fbfR ∨ lca ∈ fbfS.index) ∧
        SegFrom fbfS ta lca l₁ ∧ SegFrom fbfS tb lca l₂ ∧
        (∀ x ∈ l₁, ∀ y ∈ l₂, x.id ≠ y.id)) :=
  fetch_branch_from_spec fbfS fbfR 3 2 rfl (by decide) (by decide) (by decide)
    (by decide) (by decide)

/-! ### The close/open round trip -/

/-- Every block in the list can be re-added in order: its parent is the
root or lies among the entries available before it. -/
def ParentsOrdered (r : BlockState) : List BlockState → List BlockState → Prop
  | _, [] => True
  | acc, n :: rest =>
    (n.previous = r.id ∨ ∃ p ∈ acc, p.id = n.previous) ∧
    ParentsOrdered r (acc ++ [n]) rest

theorem fp_irrefl (a : BlockState) : first_preferred a a = false := by
  simp only [first_preferred, decide_eq_false_iff_not]
  omega

/-- A child is strictly more `first_preferred` than its parent when
irreversibility is monotone along the edge. -/
theorem fp_child_parent {n p : BlockState}
    (hbn : n.block_num = p.block_num + 1)
    (hirr : p.irreversible_blocknum ≤ n.irreversible_blocknum) :
    first_preferred n p = true := by
  simp only [first_preferred, decide_eq_true_eq]
  omega

/-- A list in ascending fork-preference order in which every in-list parent
is strictly less preferred than its child lists parents before children. -/
theorem parents_ordered_of_pairwise (r : BlockState) :
    ∀ (bs acc : List BlockState),
      (∀ n ∈ bs, n.previous = r.id ∨ ∃ p, p.id = n.previous ∧ (p ∈ acc ∨ p ∈ bs)) →
      (∀ n ∈ bs, ∀ p ∈ bs, p.id = n.previous → first_preferred n p = true) →
      List.Pairwise (fun a b => first_preferred a b = false) bs →
      ParentsOrdered r acc bs := by
  intro bs
  induction bs with
  | nil =>
    intro acc h1 h2 h3
    trivial
  | cons n rest ih =>
    intro acc hres hedge hpw
    rcases List.pairwise_cons.mp hpw with ⟨hhd, htl⟩
    refine ⟨?_, ?_⟩
    · rcases hres n (List.mem_cons_self n rest) with h | ⟨p, hpid, hp⟩
      · exact Or.inl h
      · rcases hp with hp | hp
        · exact Or.inr ⟨p, hp, hpid⟩
        · exfalso
          have h1 := hedge n (List.mem_cons_self n rest) p hp hpid
          rcases List.mem_cons.mp hp with hpn | hpr2
          · rw [hpn] at h1
            rw [fp_irrefl n] at h1
            exact Bool.false_ne_true h1
          · have h2 := hhd p hpr2
            rw [h1] at h2
            exact Bool.noConfusion h2
    · refine ih (acc ++ [n]) ?_ ?_ htl
      · intro m hm
        rcases hres m (List.mem_cons_of_mem n hm) with h | ⟨p, hpid, hp⟩
        · exact Or.inl h
        · refine Or.inr ⟨p, hpid, ?_⟩
          rcases hp with hp | hp
          · exact Or.inl (List.mem_append_left _ hp)
          · rcases List.mem_cons.mp hp with hpn | hpr2
            · exact Or.inl (List.mem_append_right _ (by rw [hpn]; exact List.mem_singleton.mpr rfl))
            · exact Or.inr hpr2
      · intro m hm p hp hpid
        exact hedge m (List.mem_cons_of_mem n hm) p (List.mem_cons_of_mem n hp) hpid

/-- The reconstruction loop succeeds on a parents-first, duplicate-free,
validator-accepted block list and appends exactly those blocks. -/
theorem add_loop_ok (vpass : BlockState → Bool) :
    ∀ (bs : List BlockState) (t : ForkDB) (r : BlockState),
      t.root = some r →
      (∀ n ∈ bs, vpass n = true) →
      IdsNodup (t.index ++ bs) →
      ParentsOrdered r t.index bs →
      ∃ hd', add_loop t vpass bs =
        ({ root := t.root, head := hd', index := t.index ++ bs }, none) := by
  intro bs
  induction bs with
  | nil =>
    intro t r hroot hv hn hpo
    exact ⟨t.head, by simp [add_loop]⟩
  | cons n rest ih =>
    intro t r hroot hv hn hpo
    rcases hpo with ⟨hres, hpo'⟩
    have hn' : ((t.index.map (fun n => n.id)) ++ ((n :: rest).map (fun n => n.id))).Nodup := by
      rw [← List.map_append]
      exact hn
    have hnodup_t : IdsNodup t.index := (List.nodup_append.mp hn').1
    have hdisj := (List.nodup_append.mp hn').2.2
    have hhdr : ∃ q, get_block_header_impl t n.previous = some q := by
      unfold get_block_header_impl
      rw [hroot]
      dsimp only
      by_cases hc : r.id = n.previous
      · exact ⟨r, by rw [if_pos hc]⟩
      · rcases hres with h | ⟨p, hp, hpid⟩
        · exact absurd h.symm hc
        · refine ⟨p, ?_⟩
          rw [if_neg hc, ← hpid]
          exact get_block_of_mem hnodup_t hp
    obtain ⟨q, hq⟩ := hhdr
    have hvn : vpass n = true := hv n (List.mem_cons_self n rest)
    have hdup : t.index.any (fun m => m.id == n.id) = false := by
      rw [List.any_eq_false]
      intro m hm
      simp only [beq_iff_eq]
      intro hme
      exact hdisj (List.mem_map.mpr ⟨m, hm, hme⟩)
        (List.mem_map.mpr ⟨n, List.mem_cons_self n rest, rfl⟩)
    have hstep : ∃ hd₁, add_impl t n false true vpass =
        ({ root := t.root, head := hd₁, index := t.index ++ [n] }, none) := by
      unfold add_impl
      rw [hroot]
      dsimp only
      rw [hq]
      dsimp only
      have hcond : (true && !(vpass n)) = false := by
        rw [hvn]
        rfl
      rw [hcond, if_neg Bool.false_ne_true, hdup, if_neg Bool.false_ne_true]
      cases hby : by_lib_head (t.index ++ [n]) with
      | none => exact ⟨t.head, rfl⟩
      | some c =>
        cases hcv : c.valid with
        | false =>
          refine ⟨t.head, ?_⟩
          dsimp only
          rw [hcv, if_neg Bool.false_ne_true]
        | true =>
          refine ⟨some c, ?_⟩
          dsimp only
          rw [hcv, if_pos rfl]
    obtain ⟨hd₁, hstep⟩ := hstep
    obtain ⟨hd', heq⟩ := ih { root := t.root, head := hd₁, index := t.index ++ [n] } r hroot
      (fun m hm => hv m (List.mem_cons_of_mem n hm))
      (by
        show IdsNodup ((t.index ++ [n]) ++ rest)
        rw [List.append_assoc, List.singleton_append]
        exact hn)
      hpo'
    refine ⟨hd', ?_⟩
    show (match add_impl t n false true vpass with
          | (s', none) => add_loop s' vpass rest
          | (s', some e) => (s', some e)) =
        ({ root := t.root, head := hd', index := t.index ++ n :: rest }, none)
    rw [hstep]
    dsimp only
    rw [heq]
    simp [List.append_assoc]

/-- C4: with root and head set and the §3 tree invariants — unique ids,
every `previous` resolving in {root} ∪ index, heights increasing by one
along index edges, irreversibility monotone along index edges, a validated
root, a validator that accepts every stored block, and a validated head
that is fork-choice maximal (head = root when nothing is valid) — closing
and then opening the written file succeeds and reproduces root and head
exactly and the index as a permutation (the container is re-populated in
write order). -/
theorem close_open_roundtrip (s : ForkDB) (r hd : BlockState) (magic : Nat)
    (vpass : BlockState → Bool)
    (hroot : s.root = some r) (hhead : s.head = some hd)
    (hn : IdsNodup s.index)
    (hrn : ∀ n ∈ s.index, n.id ≠ r.id)
    (hpr : ∀ n ∈ s.index, n.previous = r.id ∨ ∃ p ∈ s.index, p.id = n.previous)
    (hbn : BnSucc s.index)
    (hirr : ∀ n ∈ s.index, ∀ p ∈ s.index, p.id = n.previous →
      p.irreversible_blocknum ≤ n.irreversible_blocknum)
    (hrv : r.valid = true)
    (hv : ∀ n ∈ s.index, vpass n = true)
    (hhd : hd = r ∨ hd ∈ s.index)
    (hmax : ∀ n ∈ s.index, n.valid = true → first_preferred n hd = false)
    (hallinv : (∀ n ∈ s.index, n.valid = false) → hd = r) :
    ∃ t, open_impl (close_impl s magic).2 (close_impl s magic).1 magic vpass = (t, none) ∧
      t.root = some r ∧ t.head = some hd ∧ List.Perm t.index s.index := by
  have hrr : rootFromHeader r.toHeaderState = r := by
    unfold rootFromHeader BlockState.toHeaderState
    rw [← hrv]
  have hclose1 : (close_impl s magic).1 = some
      { magic := magic, version := max_supported_version, root := r.toHeaderState,
        blocks := close_merge (((by_lib_list s.index).filter (fun n => n.valid)).reverse)
          (((by_lib_list s.index).filter (fun n => !n.valid)).reverse),
        head_id := some hd.id } := by
    unfold close_impl
    rw [hroot]
    dsimp only
    rw [hhead]
    rfl
  have hperm := close_blocks_perm s.index
  set blocks := close_merge (((by_lib_list s.index).filter (fun n => n.valid)).reverse)
    (((by_lib_list s.index).filter (fun n => !n.valid)).reverse) with hblocks
  have hmem : ∀ {x : BlockState}, x ∈ blocks ↔ x ∈ s.index := fun {x} => hperm.mem_iff
  have hnb : IdsNodup blocks := by
    unfold IdsNodup at hn ⊢
    exact (List.Perm.nodup_iff (hperm.map (fun n => n.id))).mpr hn
  have hpo : ParentsOrdered r [] blocks := by
    refine parents_ordered_of_pairwise r blocks [] ?_ ?_ (close_blocks_pairwise s.index)
    · intro n hnm
      rcases hpr n (hmem.mp hnm) with h | ⟨p, hp, hpid⟩
      · exact Or.inl h
      · exact Or.inr ⟨p, hpid, Or.inr (hmem.mpr hp)⟩
    · intro n hnm p hp hpid
      exact fp_child_parent (hbn n (hmem.mp hnm) p (hmem.mp hp) hpid)
        (hirr n (hmem.mp hnm) p (hmem.mp hp) hpid)
  obtain ⟨hd', haddeq⟩ := add_loop_ok vpass blocks
    { root := some r, head := some r, index := [] } r rfl
    (fun n hnm => hv n (hmem.mp hnm)) (by simpa using hnb) hpo
  have hres : (if r.id = hd.id then some r
      else get_block_impl { root := some r, head := hd', index := [] ++ blocks } hd.id) =
        some hd := by
    rcases hhd with hh | hh
    · rw [if_pos (by rw [hh]), hh]
    · rw [if_neg (fun hcon => hrn hd hh hcon.symm)]
      have hmem2 : hd ∈ ({ root := some r, head := hd', index := [] ++ blocks } : ForkDB).index := by
        simpa using hmem.mpr hh
      exact get_block_of_mem (by simpa using hnb) hmem2
  have hfinal :
      (match by_lib_head blocks with
       | none => if hd.id = r.id
           then (({ root := some r, head := some hd, index := [] ++ blocks } : ForkDB),
             (none : Option Err))
           else ({ root := some r, head := some hd, index := [] ++ blocks },
             some Err.headNotRoot)
       | some c =>
         if c.valid = false then
           if hd.id = r.id
             then (({ root := some r, head := some hd, index := [] ++ blocks } : ForkDB),
               (none : Option Err))
             else ({ root := some r, head := some hd, index := [] ++ blocks },
               some Err.headNotRoot)
         else if first_preferred c hd then
           ({ root := some r, head := some hd, index := [] ++ blocks }, some Err.headNotBest)
         else ({ root := some r, head := some hd, index := [] ++ blocks }, none)) =
        (({ root := some r, head := some hd, index := [] ++ blocks } : ForkDB),
          (none : Option Err)) := by
    cases hbh : by_lib_head blocks with
    | none =>
      dsimp only
      have hempty : blocks = [] := by_lib_head_none hbh
      have hsempty : s.index = [] := by
        have hp2 := hperm
        rw [hempty] at hp2
        exact (List.Perm.nil_eq hp2).symm
      have hhdr2 : hd = r := hallinv (by rw [hsempty]; intro n hnm; cases hnm)
      rw [if_pos (by rw [hhdr2])]
    | some c =>
      dsimp only
      cases hcv : c.valid with
      | false =>
        have hinv : ∀ n ∈ s.index, n.valid = false := by
          intro n hnm
          exact all_invalid_of_min_invalid hbh hcv n (hmem.mpr hnm)
        have hhdr2 : hd = r := hallinv hinv
        rw [if_pos (rfl : (false : Bool) = false), if_pos (by rw [hhdr2])]
      | true =>
        have hcm : c ∈ s.index := hmem.mp (by_lib_head_mem hbh)
        have hfp : first_preferred c hd = false := hmax c hcm hcv
        rw [if_neg (by decide), hfp, if_neg (by decide)]
  refine ⟨{ root := some r, head := some hd, index := [] ++ blocks }, ?_, rfl, rfl,
    by simpa using hperm⟩
  unfold open_impl
  rw [hclose1]
  dsimp only
  rw [if_neg (by simp), if_neg (by decide)]
  rw [hrr, haddeq]
  dsimp only
  rw [hres]
  exact hfinal

theorem close_open_roundtrip_witness :
    ∃ t, open_impl (close_impl fbfS 0).2 (close_impl fbfS 0).1 0 (fun _ => true) =
        (t, none) ∧
      t.root = some fbfR ∧
      t.head = some { id := 3, previous := 1, block_num := 7,
                      irreversible_blocknum := 0, valid := true } ∧
      List.Perm t.index fbfS.index :=
  close_open_roundtrip fbfS fbfR
    { id := 3, previous := 1, block_num := 7, irreversible_blocknum := 0, valid := true }
    0 (fun _ => true) rfl rfl (by decide) (by decide) (by decide) (by decide) (by decide)
    rfl (by decide) (by decide) (by decide) (by decide)

/-! ### The head invariant -/

/-- The state invariant behind the head/fork-choice claim: root and head
are set and validated, the head is the root or an index entry, ids are
unique across {root} ∪ index, and no valid index entry is strictly more
`first_preferred` than the head. -/
def Inv (s : ForkDB) : Prop :=
  ∃ r hd, s.root = some r ∧ s.head = some hd ∧
    r.valid = true ∧ hd.valid = true ∧
    (hd = r ∨ hd ∈ s.index) ∧
    IdsNodup s.index ∧
    (∀ n ∈ s.index, n.id ≠ r.id) ∧
    (∀ n ∈ s.index, n.valid = true → first_preferred n hd = false)

theorem inv_reset (bhs : BlockHeaderState) : Inv (reset_impl bhs) := by
  refine ⟨rootFromHeader bhs, rootFromHeader bhs, rfl, rfl, rfl, rfl, Or.inl rfl, ?_, ?_, ?_⟩
  · exact List.nodup_nil
  · intro n hn
    cases hn
  · intro n hn
    cases hn

/-- The composite minimum is valid as soon as some list entry is. -/
theorem by_lib_head_valid_of_mem {l : List BlockState} {c x : BlockState}
    (h : by_lib_head l = some c) (hx : x ∈ l) (hxv : x.valid = true) :
    c.valid = true := by
  cases hcv : c.valid with
  | true => rfl
  | false => exact absurd (all_invalid_of_min_invalid h hcv x hx) (by rw [hxv]; simp)

/-- `add` preserves the head invariant, provided the added node does not
reuse the root's id (the code never compares the two). -/
theorem inv_add (s : ForkDB) (n : BlockState) (idup val : Bool) (vp : BlockState → Bool)
    (hinv : Inv s) (hfresh : ∀ r, s.root = some r → n.id ≠ r.id) :
    Inv (add_impl s n idup val vp).1 := by
  obtain ⟨r, hd, hroot, hhead, hrv, hdv, hmem, hnd, hnr, hmax⟩ := hinv
  have hfr : n.id ≠ r.id := hfresh r hroot
  unfold add_impl
  rw [hroot]
  dsimp only
  cases hg : get_block_header_impl s n.previous with
  | none => exact ⟨r, hd, hroot, hhead, hrv, hdv, hmem, hnd, hnr, hmax⟩
  | some q =>
    dsimp only
    by_cases hval : (val && !(vp n)) = true
    · rw [if_pos hval]
      exact ⟨r, hd, hroot, hhead, hrv, hdv, hmem, hnd, hnr, hmax⟩
    · rw [if_neg hval]
      by_cases hdub : (s.index.any (fun m => m.id == n.id)) = true
      · rw [if_pos hdub]
        cases idup with
        | true => exact ⟨r, hd, hroot, hhead, hrv, hdv, hmem, hnd, hnr, hmax⟩
        | false => exact ⟨r, hd, hroot, hhead, hrv, hdv, hmem, hnd, hnr, hmax⟩
      · rw [if_neg hdub]
        have hnin : ∀ m ∈ s.index, m.id ≠ n.id := by
          intro m hm hme
          exact hdub (List.any_eq_true.mpr ⟨m, hm, by simp [hme]⟩)
        have hnd' : IdsNodup (s.index ++ [n]) := by
          unfold IdsNodup at hnd ⊢
          rw [List.map_append]
          refine List.Nodup.append hnd (by simp) ?_
          intro a ha hb
          have hb' : a = n.id := by simpa using hb
          rcases List.mem_map.mp ha with ⟨m, hm, hma⟩
          exact hnin m hm (hma.trans hb')
        have hnr' : ∀ m ∈ s.index ++ [n], m.id ≠ r.id := by
          intro m hm
          rcases List.mem_append.mp hm with h | h
          · exact hnr m h
          · rw [List.mem_singleton.mp h]
            exact hfr
        have hmem' : hd = r ∨ hd ∈ s.index ++ [n] := hmem.imp id (List.mem_append_left _)
        cases hby : by_lib_head (s.index ++ [n]) with
        | none =>
          exfalso
          have := by_lib_head_none hby
          simp at this
        | some c =>
          dsimp only
          cases hcv : c.valid with
          | true =>
            rw [if_pos rfl]
            exact ⟨r, c, rfl, rfl, hrv, hcv, Or.inr (by_lib_head_mem hby), hnd', hnr',
              fun m hm hmv => fp_false_of_min hby hm hmv hcv⟩
          | false =>
            rw [if_neg (by simp)]
            refine ⟨r, hd, rfl, hhead, hrv, hdv, hmem', hnd', hnr', ?_⟩
            intro m hm hmv
            exact absurd ((all_invalid_of_min_invalid hby hcv m hm).symm.trans hmv)
              Bool.false_ne_true

/-- `rollback_head_to_root` preserves the head invariant. -/
theorem inv_rollback (s : ForkDB) (hinv : Inv s) :
    Inv (rollback_head_to_root_impl s) := by
  obtain ⟨r, hd, hroot, hhead, hrv, hdv, hmem, hnd, hnr, hmax⟩ := hinv
  refine ⟨r, r, by rw [rollback_head_to_root_impl, hroot], by rw [rollback_head_to_root_impl, hroot], hrv, hrv, Or.inl rfl, ?_, ?_, ?_⟩
  · unfold IdsNodup at hnd ⊢
    unfold rollback_head_to_root_impl
    dsimp only
    rw [List.map_map]
    exact hnd
  · intro m hm
    unfold rollback_head_to_root_impl at hm
    dsimp only at hm
    rcases List.mem_map.mp hm with ⟨m₀, hm₀, hmap⟩
    rw [← hmap]
    exact hnr m₀ hm₀
  · intro m hm hmv
    unfold rollback_head_to_root_impl at hm
    dsimp only at hm
    rcases List.mem_map.mp hm with ⟨m₀, hm₀, hmap⟩
    rw [← hmap] at hmv
    exact absurd hmv (by simp)

theorem set_valid_eq {x : BlockState} (hx : x.valid = true) :
    { x with valid := true } = x := by
  cases x with
  | mk i p b ir v =>
    dsimp only at hx
    subst hx
    rfl

/-- `mark_valid` preserves the head invariant. -/
theorem inv_mark_valid (s : ForkDB) (h : BlockState) (hinv : Inv s) :
    Inv (mark_valid_impl s h).1 := by
  obtain ⟨r, hd, hroot, hhead, hrv, hdv, hmem, hnd, hnr, hmax⟩ := hinv
  unfold mark_valid_impl
  by_cases hv : h.valid = true
  · rw [if_pos hv]
    exact ⟨r, hd, hroot, hhead, hrv, hdv, hmem, hnd, hnr, hmax⟩
  · rw [if_neg hv]
    cases hf : s.index.find? (fun m => m.id == h.id) with
    | none => exact ⟨r, hd, hroot, hhead, hrv, hdv, hmem, hnd, hnr, hmax⟩
    | some e =>
      dsimp only
      have he : e ∈ s.index := List.mem_of_find?_eq_some hf
      have heid : e.id = h.id := by simpa using List.find?_some hf
      have hids : (s.index.map (fun m => if m.id = h.id then { m with valid := true }
          else m)).map (fun x => x.id) = s.index.map (fun x => x.id) := by
        rw [List.map_map]
        refine List.map_congr_left ?_
        intro m _
        by_cases hc : m.id = h.id
        · simp [hc]
        · simp [hc]
      have hnd2 : IdsNodup (s.index.map (fun m => if m.id = h.id then
          { m with valid := true } else m)) := by
        unfold IdsNodup
        rw [hids]
        exact hnd
      have hnr2 : ∀ m ∈ s.index.map (fun m => if m.id = h.id then
          { m with valid := true } else m), m.id ≠ r.id := by
        intro m hm
        rcases List.mem_map.mp hm with ⟨m₀, hm₀, hmap⟩
        rw [← hmap]
        by_cases hc : m₀.id = h.id
        · rw [if_pos hc]
          exact hnr m₀ hm₀
        · rw [if_neg hc]
          exact hnr m₀ hm₀
      have hmark : ({ e with valid := true } : BlockState) ∈ s.index.map
          (fun m => if m.id = h.id then { m with valid := true } else m) :=
        List.mem_map.mpr ⟨e, he, by rw [if_pos heid]⟩
      have hdmem2 : hd = r ∨ hd ∈ s.index.map (fun m => if m.id = h.id then
          { m with valid := true } else m) := by
        rcases hmem with hh | hh
        · exact Or.inl hh
        · refine Or.inr (List.mem_map.mpr ⟨hd, hh, ?_⟩)
          by_cases hc : hd.id = h.id
          · rw [if_pos hc]
            exact set_valid_eq hdv
          · rw [if_neg hc]
      rw [hhead]
      cases hby : by_lib_head (s.index.map (fun m => if m.id = h.id then
          { m with valid := true } else m)) with
      | none =>
        exfalso
        have hempty := by_lib_head_none hby
        rw [hempty] at hmark
        cases hmark
      | some c =>
        dsimp only
        have hcv : c.valid = true := by_lib_head_valid_of_mem hby hmark rfl
        by_cases hfp : first_preferred c hd = true
        · rw [if_pos hfp]
          exact ⟨r, c, hroot, rfl, hrv, hcv, Or.inr (by_lib_head_mem hby), hnd2, hnr2,
            fun m hm hmv => fp_false_of_min hby hm hmv hcv⟩
        · rw [if_neg hfp]
          have hfpc : first_preferred c hd = false := by
            cases hx : first_preferred c hd with
            | false => rfl
            | true => exact absurd hx hfp
          refine ⟨r, hd, hroot, rfl, hrv, hdv, hdmem2, hnd2, hnr2, ?_⟩
          intro m hm hmv
          exact fp_false_trans (fp_false_of_min hby hm hmv hcv) hfpc

/-- `remove` preserves the head invariant (failures leave the state
untouched; successes never erase the head or the root). -/
theorem inv_remove (s : ForkDB) (i : Nat) (hinv : Inv s) :
    Inv (remove_impl s i).1 := by
  obtain ⟨r, hd, hroot, hhead, hrv, hdv, hmem, hnd, hnr, hmax⟩ := hinv
  unfold remove_impl
  rw [hhead]
  dsimp only
  cases hres : bfs_collect s.index hd.id (s.index.length + 2) [] [i] with
  | error e => exact ⟨r, hd, hroot, hhead, hrv, hdv, hmem, hnd, hnr, hmax⟩
  | ok ids =>
    dsimp only
    have hnever : ∀ x ∈ ids, x ≠ hd.id := bfs_ok_not_head hres (by intro x hx; cases hx)
    refine ⟨r, hd, hroot, rfl, hrv, hdv, ?_, ?_, ?_, ?_⟩
    · rcases hmem with hh | hh
      · exact Or.inl hh
      · refine Or.inr (List.mem_filter.mpr ⟨hh, ?_⟩)
        simpa using (show hd.id ∉ ids from fun hx => hnever hd.id hx rfl)
    · unfold IdsNodup at hnd ⊢
      exact List.Nodup.sublist ((List.filter_sublist s.index).map (fun x => x.id)) hnd
    · intro m hm
      exact hnr m (List.mem_of_mem_filter hm)
    · intro m hm hmv
      exact hmax m (List.mem_of_mem_filter hm) hmv

/-! ### Cycles make the ancestor walk diverge -/

/-- Iterated parent steps through the index, as walked by
`collect_ancestors`. -/
def stepN (s : ForkDB) : Nat → BlockState → Option BlockState
  | 0, b => some b
  | k + 1, b =>
    match get_block_impl s b.previous with
    | some b' => stepN s k b'
    | none => none

theorem stepN_snoc {s : ForkDB} : ∀ {i : Nat} {b w w' : BlockState},
    stepN s i b = some w → get_block_impl s w.previous = some w' →
    stepN s (i + 1) b = some w' := by
  intro i
  induction i with
  | zero =>
    intro b w w' hs hg
    have hb : b = w := by simpa [stepN] using hs
    subst hb
    simp [stepN, hg]
  | succ i ih =>
    intro b w w' hs hg
    rw [stepN] at hs
    cases hgb : get_block_impl s b.previous with
    | none =>
      rw [hgb] at hs
      cases hs
    | some b₁ =>
      rw [hgb] at hs
      have := ih hs hg
      rw [stepN, hgb]
      exact this

/-- Every id pushed by a successful ancestor walk is the `previous` of a
node on the walk's orbit. -/
theorem ca_mem {s : ForkDB} {rid : Nat} : ∀ {fuel : Nat} {b : BlockState}
    {acc out : List Nat},
    collect_ancestors s rid fuel b acc = .ok out →
    ∀ x ∈ out, x ∈ acc ∨ ∃ i w, stepN s i b = some w ∧ w.previous = x := by
  intro fuel
  induction fuel with
  | zero =>
    intro b acc out h
    simp [collect_ancestors] at h
  | succ fuel ih =>
    intro b acc out h x hx
    rw [collect_ancestors] at h
    cases hg : get_block_impl s b.previous with
    | some b' =>
      rw [hg] at h
      rcases ih h x hx with hacc | ⟨i, w, hsw, hwp⟩
      · rcases List.mem_append.mp hacc with h' | h'
        · exact Or.inl h'
        · refine Or.inr ⟨0, b, by simp [stepN], ?_⟩
          exact (by simpa using h' : x = b.previous).symm
      · refine Or.inr ⟨i + 1, w, ?_, hwp⟩
        rw [stepN, hg]
        exact hsw
    | none =>
      rw [hg] at h
      by_cases hp : b.previous = rid
      · rw [if_pos hp] at h
        have hout : out = acc ++ [b.previous] := by
          simpa using h.symm
        rw [hout] at hx
        rcases List.mem_append.mp hx with h' | h'
        · exact Or.inl h'
        · refine Or.inr ⟨0, b, by simp [stepN], ?_⟩
          exact (by simpa using h' : x = b.previous).symm
      · rw [if_neg hp] at h
        cases h

/-- On an orbit that returns to `nr`, the ancestor walk only ever runs out
of fuel: the C++ loop never terminates. -/
theorem ca_cycle {s : ForkDB} {nr : BlockState}
    (hP : ∃ j, stepN s (j + 1) nr = some nr) :
    ∀ (fuel rid : Nat) (b : BlockState) (acc : List Nat),
      (∃ j, stepN s (j + 1) b = some nr) →
      collect_ancestors s rid fuel b acc = .error .fuel := by
  have hstep : ∀ b : BlockState, (∃ j, stepN s (j + 1) b = some nr) →
      ∃ b', get_block_impl s b.previous = some b' ∧
        (∃ j, stepN s (j + 1) b' = some nr) := by
    intro b ⟨j, hj⟩
    rw [stepN] at hj
    cases hg : get_block_impl s b.previous with
    | none =>
      rw [hg] at hj
      cases hj
    | some b' =>
      rw [hg] at hj
      refine ⟨b', rfl, ?_⟩
      cases j with
      | zero =>
        have hb : b' = nr := by simpa [stepN] using hj
        subst hb
        exact hP
      | succ k => exact ⟨k, hj⟩
  intro fuel
  induction fuel with
  | zero =>
    intro rid b acc hb
    rfl
  | succ fuel ih =>
    intro rid b acc hb
    obtain ⟨b', hg, hb'⟩ := hstep b hb
    rw [collect_ancestors, hg]
    exact ih rid b' (acc ++ [b.previous]) hb'

/-- A WouldRemoveHead outcome of the enumeration names an id that was
queued or belongs to an index node. -/
theorem bfs_wrh_mem {index : List BlockState} {headId : Nat} :
    ∀ {fuel : Nat} {acc pend : List Nat},
      bfs_collect index headId fuel acc pend = .error .wouldRemoveHead →
      headId ∈ pend ∨ ∃ m ∈ index, m.id = headId := by
  intro fuel
  induction fuel with
  | zero =>
    intro acc pend h
    simp only [bfs_collect, Except.error.injEq] at h
    cases h
  | succ fuel ih =>
    intro acc pend h
    cases pend with
    | nil => simp [bfs_collect] at h
    | cons q qs =>
      simp only [bfs_collect] at h
      by_cases hq : q = headId
      · rw [if_pos hq] at h
        exact Or.inl (by rw [← hq]; exact List.mem_cons_self q qs)
      · rw [if_neg hq] at h
        rcases ih h with h' | h'
        · rcases List.mem_append.mp h' with h'' | h''
          · exact Or.inl (List.mem_cons_of_mem q h'')
          · rcases mem_children_of.mp h'' with ⟨n, hnm, hni, _⟩
            exact Or.inr ⟨n, hnm, hni⟩
        · exact Or.inr h'

/-- A successful `remove` was not seeded with the head's id. -/
theorem remove_ok_seed_ne {t u : ForkDB} {i : Nat} {hd : BlockState}
    (hh : t.head = some hd) (h : remove_impl t i = (u, none)) : i ≠ hd.id := by
  unfold remove_impl at h
  rw [hh] at h
  dsimp only at h
  cases hres : bfs_collect t.index hd.id (t.index.length + 2) [] [i] with
  | error e =>
    rw [hres] at h
    simp at h
  | ok ids =>
    intro hcon
    rw [show (t.index.length + 2) = (t.index.length + 1) + 1 by omega] at hres
    simp only [bfs_collect] at hres
    rw [if_pos hcon] at hres
    cases hres

/-- A WouldRemoveHead failure of `remove` names the seed or an index id. -/
theorem remove_wrh_mem {t u : ForkDB} {i : Nat} {hd : BlockState}
    (hh : t.head = some hd) (h : remove_impl t i = (u, some .wouldRemoveHead)) :
    hd.id = i ∨ ∃ m ∈ t.index, m.id = hd.id := by
  unfold remove_impl at h
  rw [hh] at h
  dsimp only at h
  cases hres : bfs_collect t.index hd.id (t.index.length + 2) [] [i] with
  | ok ids =>
    rw [hres] at h
    simp at h
  | error e =>
    rw [hres] at h
    simp only [Prod.mk.injEq, Option.some.injEq] at h
    rcases bfs_wrh_mem (hres.trans (by rw [h.2])) with h' | h'
    · exact Or.inl (by simpa using h' : hd.id = i).symm.symm
    · exact Or.inr h'

/-- Weak invariant carried through the pruning loop of `advance_root`: the
head may transiently be the already-erased new root. -/
def WInv (r nr hd : BlockState) (t : ForkDB) : Prop :=
  t.root = some r ∧ t.head = some hd ∧ IdsNodup t.index ∧
  (∀ n ∈ t.index, n.id ≠ r.id) ∧
  (∀ n ∈ t.index, n.valid = true → first_preferred n hd = false) ∧
  (hd ∈ t.index ∨ hd = r ∨ hd = nr)

theorem winv_remove {r nr hd : BlockState} {t : ForkDB} (i : Nat)
    (hw : WInv r nr hd t) : WInv r nr hd (remove_impl t i).1 := by
  obtain ⟨hroot, hhead, hnd, hnr, hmax, hmem⟩ := hw
  unfold remove_impl
  rw [hhead]
  dsimp only
  cases hres : bfs_collect t.index hd.id (t.index.length + 2) [] [i] with
  | error e => exact ⟨hroot, hhead, hnd, hnr, hmax, hmem⟩
  | ok ids =>
    dsimp only
    have hnever : ∀ x ∈ ids, x ≠ hd.id := bfs_ok_not_head hres (by intro x hx; cases hx)
    refine ⟨hroot, rfl, ?_, ?_, ?_, ?_⟩
    · unfold IdsNodup at hnd ⊢
      exact List.Nodup.sublist ((List.filter_sublist t.index).map (fun x => x.id)) hnd
    · intro m hm
      exact hnr m (List.mem_of_mem_filter hm)
    · intro m hm hmv
      exact hmax m (List.mem_of_mem_filter hm) hmv
    · rcases hmem with hh | hh
      · refine Or.inl (List.mem_filter.mpr ⟨hh, ?_⟩)
        simpa using (show hd.id ∉ ids from fun hx => hnever hd.id hx rfl)
      · exact Or.inr hh

theorem winv_remove_loop {r nr hd : BlockState} : ∀ (ids : List Nat) (t : ForkDB),
    WInv r nr hd t → WInv r nr hd (remove_loop t ids).1 := by
  intro ids
  induction ids with
  | nil =>
    intro t hw
    exact hw
  | cons i rest ih =>
    intro t hw
    show WInv r nr hd (match remove_impl t i with
      | (s', none) => remove_loop s' rest
      | (s', some e) => (s', some e)).1
    cases hri : remove_impl t i with
    | mk u e =>
      have hu : WInv r nr hd u := by
        have := winv_remove i hw
        rw [hri] at this
        exact this
      cases e with
      | none => exact ih u hu
      | some e' => exact hu

/-- Error classification of a failing `remove` with the head set. -/
theorem remove_err_cases {t u : ForkDB} {i : Nat} {hd : BlockState} {e : Err}
    (hh : t.head = some hd) (h : remove_impl t i = (u, some e)) :
    e = .fuel ∨ e = .wouldRemoveHead := by
  unfold remove_impl at h
  rw [hh] at h
  dsimp only at h
  cases hres : bfs_collect t.index hd.id (t.index.length + 2) [] [i] with
  | error e₀ =>
    rw [hres] at h
    simp only [Prod.mk.injEq, Option.some.injEq] at h
    exact h.2 ▸ bfs_error_cases hres
  | ok ids =>
    rw [hres] at h
    simp at h

theorem remove_loop_err_cases {r nr hd : BlockState} {e : Err} :
    ∀ (ids : List Nat) (t : ForkDB), WInv r nr hd t →
      (remove_loop t ids).2 = some e → e = .fuel ∨ e = .wouldRemoveHead := by
  intro ids
  induction ids with
  | nil =>
    intro t hw h
    simp [remove_loop] at h
  | cons i rest ih =>
    intro t hw h
    rw [show remove_loop t (i :: rest) = (match remove_impl t i with
      | (s', none) => remove_loop s' rest
      | (s', some e) => (s', some e)) from rfl] at h
    cases hri : remove_impl t i with
    | mk u e₀ =>
      have hu : WInv r nr hd u := by
        have := winv_remove i hw
        rw [hri] at this
        exact this
      rw [hri] at h
      cases e₀ with
      | none => exact ih u hu h
      | some e' =>
        dsimp only at h
        have he : e' = e := by simpa using h
        exact he ▸ remove_err_cases hw.2.1 hri

theorem remove_loop_wrh {r nr hd : BlockState} :
    ∀ (ids : List Nat) (t : ForkDB), WInv r nr hd t →
      (remove_loop t ids).2 = some Err.wouldRemoveHead →
      hd.id ∈ ids ∨ ∃ m ∈ t.index, m.id = hd.id := by
  intro ids
  induction ids with
  | nil =>
    intro t hw h
    simp [remove_loop] at h
  | cons i rest ih =>
    intro t hw h
    rw [show remove_loop t (i :: rest) = (match remove_impl t i with
      | (s', none) => remove_loop s' rest
      | (s', some e) => (s', some e)) from rfl] at h
    cases hri : remove_impl t i with
    | mk u e₀ =>
      have hu : WInv r nr hd u := by
        have := winv_remove i hw
        rw [hri] at this
        exact this
      rw [hri] at h
      cases e₀ with
      | none =>
        rcases ih u hu h with h' | ⟨m, hm, hmi⟩
        · exact Or.inl (List.mem_cons_of_mem i h')
        · rcases remove_ok_elim hri with ⟨hd₀, ids₀, _, huu, _, _⟩
          rw [huu] at hm
          exact Or.inr ⟨m, List.mem_of_mem_filter hm, hmi⟩
      | some e' =>
        dsimp only at h
        have he : e' = Err.wouldRemoveHead := by simpa using h
        rcases remove_wrh_mem hw.2.1 (by rw [hri, he]) with h' | h'
        · exact Or.inl (by rw [← h']; exact List.mem_cons_self hd.id rest)
        · exact Or.inr h'

theorem remove_loop_ok_seeds {r nr hd : BlockState} :
    ∀ (ids : List Nat) (t : ForkDB), WInv r nr hd t →
      (remove_loop t ids).2 = none → ∀ j ∈ ids, j ≠ hd.id := by
  intro ids
  induction ids with
  | nil =>
    intro t hw h j hj
    cases hj
  | cons i rest ih =>
    intro t hw h j hj
    rw [show remove_loop t (i :: rest) = (match remove_impl t i with
      | (s', none) => remove_loop s' rest
      | (s', some e) => (s', some e)) from rfl] at h
    cases hri : remove_impl t i with
    | mk u e₀ =>
      have hu : WInv r nr hd u := by
        have := winv_remove i hw
        rw [hri] at this
        exact this
      rw [hri] at h
      cases e₀ with
      | none =>
        rcases List.mem_cons.mp hj with hji | hjr
        · exact hji ▸ remove_ok_seed_ne hw.2.1 hri
        · exact ih u hu h j hjr
      | some e' =>
        dsimp only at h
        cases h

/-- `advance_root` preserves the head invariant whenever its loops
terminate (the ancestor walk diverges on cycles, so a non-fuel outcome
never erases the head: a WouldRemoveHead failure with the head at the new
root would require the new root among its own ancestors). -/
theorem inv_advance_root (s : ForkDB) (tid : Nat) (hinv : Inv s)
    (hguard : (advance_root_impl s tid).2 ≠ some Err.fuel) :
    Inv (advance_root_impl s tid).1 := by
  obtain ⟨r, hd, hroot, hhead, hrv, hdv, hmem, hnd, hnr, hmax⟩ := hinv
  unfold advance_root_impl at hguard ⊢
  rw [hroot] at hguard ⊢
  dsimp only at hguard ⊢
  cases hg : get_block_impl s tid with
  | none => exact ⟨r, hd, hroot, hhead, hrv, hdv, hmem, hnd, hnr, hmax⟩
  | some nr =>
    rw [hg] at hguard
    dsimp only at hguard ⊢
    obtain ⟨hnrm, hnrid⟩ := get_block_mem hg
    by_cases hnv : nr.valid = false
    · rw [if_pos hnv]
      exact ⟨r, hd, hroot, hhead, hrv, hdv, hmem, hnd, hnr, hmax⟩
    · rw [if_neg hnv] at hguard ⊢
      have hnval : nr.valid = true := by
        cases hx : nr.valid with
        | false => exact absurd hx hnv
        | true => rfl
      cases hca : collect_ancestors s r.id (s.index.length + 1) nr [] with
      | error e =>
        rw [hca] at hguard
        exact ⟨r, hd, hroot, hhead, hrv, hdv, hmem, hnd, hnr, hmax⟩
      | ok btr =>
        rw [hca] at hguard
        dsimp only at hguard ⊢
        have hw : WInv r nr hd { root := some r, head := s.head, index := s.index.filter (fun n => !(n.id == tid)) } := by
          refine ⟨rfl, hhead, ?_, ?_, ?_, ?_⟩
          · unfold IdsNodup at hnd ⊢
            exact List.Nodup.sublist ((List.filter_sublist s.index).map (fun x => x.id)) hnd
          · intro m hm
            exact hnr m (List.mem_of_mem_filter hm)
          · intro m hm hmv
            exact hmax m (List.mem_of_mem_filter hm) hmv
          · rcases hmem with hh | hh
            · exact Or.inr (Or.inl hh)
            · by_cases hhid : hd.id = tid
              · exact Or.inr (Or.inr (id_inj hnd hh hnrm (by rw [hhid, hnrid])))
              · exact Or.inl (List.mem_filter.mpr ⟨hh, by simpa using hhid⟩)
        cases hrl : remove_loop { root := some r, head := s.head, index := s.index.filter (fun n => !(n.id == tid)) } btr with
        | mk s₂ e2 =>
          rw [hrl] at hguard
          have hw₂ : WInv r nr hd s₂ := by
            have h2 := winv_remove_loop btr _ hw
            rw [hrl] at h2
            exact h2
          obtain ⟨hroot₂, hhead₂, hnd₂, hnr₂, hmax₂, hmem₂⟩ := hw₂
          cases e2 with
          | none =>
            dsimp only at hguard ⊢
            have hseeds : ∀ j ∈ btr, j ≠ hd.id := by
              refine remove_loop_ok_seeds btr _ hw ?_
              rw [hrl]
            have hrid : r.id ∈ btr := collect_ancestors_root_mem hca
            have hdnotr : hd ≠ r := by
              intro hcon
              exact hseeds r.id hrid (by rw [hcon])
            refine ⟨nr, hd, rfl, hhead₂, hnval, hdv, ?_, hnd₂, ?_, hmax₂⟩
            · rcases hmem₂ with hh | hh | hh
              · exact Or.inr hh
              · exact absurd hh hdnotr
              · exact Or.inl hh
            · intro m hm
              have hms₁ := remove_loop_subset btr _ m (by rw [hrl]; exact hm)
              have hm2 := List.mem_filter.mp hms₁
              have hne : m.id ≠ tid := by simpa using hm2.2
              intro hcon
              exact hne (hcon.trans hnrid)
          | some e' =>
            dsimp only at hguard ⊢
            have hef : e' ≠ Err.fuel := by
              intro hcon
              exact hguard (by rw [hcon])
            have hwrh : e' = Err.wouldRemoveHead := by
              rcases remove_loop_err_cases btr _ hw (by rw [hrl]) with h | h
              · exact absurd h hef
              · exact h
            refine ⟨r, hd, hroot₂, hhead₂, hrv, hdv, ?_, hnd₂, hnr₂, hmax₂⟩
            rcases hmem₂ with hh | hh | hh
            · exact Or.inr hh
            · exact Or.inl hh
            · exfalso
              rcases remove_loop_wrh btr _ hw (by rw [hrl, hwrh]) with h' | ⟨m, hm', hmi⟩
              · have h'' : nr.id ∈ btr := by
                  rw [← hh]
                  exact h'
                rcases ca_mem hca nr.id h'' with hc | ⟨i, w, hsw, hwp⟩
                · cases hc
                · have hgb : get_block_impl s nr.id = some nr := get_block_of_mem hnd hnrm
                  have hgn : get_block_impl s w.previous = some nr := by
                    rw [hwp]
                    exact hgb
                  have hP : ∃ j, stepN s (j + 1) nr = some nr := ⟨i, stepN_snoc hsw hgn⟩
                  have hcy := ca_cycle hP (s.index.length + 1) r.id nr [] hP
                  rw [hca] at hcy
                  cases hcy
              · have hm2 := List.mem_filter.mp hm'
                have hne : m.id ≠ tid := by simpa using hm2.2
                exact hne (by rw [hmi, hh, hnrid])

theorem close_file_eq {s : ForkDB} {r hd : BlockState} (magic : Nat)
    (hroot : s.root = some r) (hhead : s.head = some hd) :
    (close_impl s magic).1 = some { magic := magic, version := max_supported_version, root := r.toHeaderState, blocks := close_merge (((by_lib_list s.index).filter (fun n => n.valid)).reverse) (((by_lib_list s.index).filter (fun n => !n.valid)).reverse), head_id := some hd.id } := by
  unfold close_impl
  rw [hroot]
  dsimp only
  rw [hhead]
  rfl

/-- A successful `add` in the reconstruction loop keeps the root and
appends exactly the new node. -/
theorem add_ok_shape {t u : ForkDB} {n : BlockState} {vp : BlockState → Bool}
    (h : add_impl t n false true vp = (u, none)) :
    u.root = t.root ∧ u.index = t.index ++ [n] := by
  unfold add_impl at h
  cases hr : t.root with
  | none =>
    rw [hr] at h
    simp at h
  | some r =>
    rw [hr] at h
    dsimp only at h
    cases hg : get_block_header_impl t n.previous with
    | none =>
      rw [hg] at h
      simp at h
    | some q =>
      rw [hg] at h
      dsimp only at h
      by_cases hval : (true && !(vp n)) = true
      · rw [if_pos hval] at h
        simp at h
      · rw [if_neg hval] at h
        by_cases hdub : (t.index.any fun m => m.id == n.id) = true
        · rw [if_pos hdub, if_neg (by decide : ¬((false : Bool) = true))] at h
          simp at h
        · rw [if_neg hdub] at h
          cases hby : by_lib_head (t.index ++ [n]) with
          | none =>
            rw [hby] at h
            have hu := congrArg Prod.fst h
            dsimp only at hu
            rw [← hu]
            exact ⟨rfl, rfl⟩
          | some c =>
            rw [hby] at h
            dsimp only at h
            by_cases hcv : c.valid = true
            · rw [if_pos hcv] at h
              have hu := congrArg Prod.fst h
              dsimp only at hu
              rw [← hu]
              exact ⟨rfl, rfl⟩
            · rw [if_neg hcv] at h
              have hu := congrArg Prod.fst h
              dsimp only at hu
              rw [← hu]
              exact ⟨rfl, rfl⟩

/-- A fully successful reconstruction loop keeps the root and appends
exactly the stored blocks. -/
theorem add_loop_index {vp : BlockState → Bool} : ∀ {bs : List BlockState}
    {t u : ForkDB}, add_loop t vp bs = (u, none) →
    u.root = t.root ∧ u.index = t.index ++ bs := by
  intro bs
  induction bs with
  | nil =>
    intro t u h
    have hu : u = t := by simpa [add_loop] using h.symm
    rw [hu]
    exact ⟨rfl, by simp⟩
  | cons n rest ih =>
    intro t u h
    rw [show add_loop t vp (n :: rest) = (match add_impl t n false true vp with
      | (s', none) => add_loop s' vp rest
      | (s', some e) => (s', some e)) from rfl] at h
    cases ha : add_impl t n false true vp with
    | mk u₀ e₀ =>
      rw [ha] at h
      cases e₀ with
      | some e' =>
        dsimp only at h
        simp at h
      | none =>
        dsimp only at h
        obtain ⟨hr₀, hi₀⟩ := add_ok_shape ha
        obtain ⟨hru, hiu⟩ := ih h
        refine ⟨hru.trans hr₀, ?_⟩
        rw [hiu, hi₀, List.append_assoc, List.singleton_append]

/-- The reconstruction loop preserves the head invariant when the stored
blocks never collide with the root id, and keeps the root. -/
theorem inv_add_loop (vp : BlockState → Bool) : ∀ (bs : List BlockState)
    (t : ForkDB) (r₀ : BlockState), t.root = some r₀ →
    (∀ n ∈ bs, n.id ≠ r₀.id) → Inv t →
    Inv (add_loop t vp bs).1 ∧ (add_loop t vp bs).1.root = some r₀ := by
  intro bs
  induction bs with
  | nil =>
    intro t r₀ hr hg hinv
    exact ⟨hinv, hr⟩
  | cons n rest ih =>
    intro t r₀ hr hg hinv
    show Inv (match add_impl t n false true vp with
      | (s', none) => add_loop s' vp rest
      | (s', some e) => (s', some e)).1 ∧
      (match add_impl t n false true vp with
      | (s', none) => add_loop s' vp rest
      | (s', some e) => (s', some e)).1.root = some r₀
    have hinv' : Inv (add_impl t n false true vp).1 := by
      refine inv_add t n false true vp hinv ?_
      intro r hr'
      have : r = r₀ := by
        rw [hr] at hr'
        exact (Option.some.injEq _ _).mp hr'.symm
      rw [this]
      exact hg n (List.mem_cons_self n rest)
    cases ha : add_impl t n false true vp with
    | mk u e₀ =>
      rw [ha] at hinv'
      cases e₀ with
      | some e' =>
        refine ⟨hinv', ?_⟩
        rcases add_impl_state_or_ok t n false true vp with hs | hs
        · rw [ha] at hs
          dsimp only at hs ⊢
          rw [hs]
          exact hr
        · rw [ha] at hs
          simp at hs
      | none =>
        dsimp only
        obtain ⟨hr₀, _⟩ := add_ok_shape ha
        exact ih u r₀ (hr₀.trans hr) (fun m hm => hg m (List.mem_cons_of_mem n hm)) hinv'

/-- Opening a file written by `close` leaves a state satisfying the head
invariant, whether or not one of the open-time checks reports an error. -/
theorem inv_open (src s : ForkDB) (magic : Nat) (vpass : BlockState → Bool)
    (hinv : Inv src) :
    Inv (open_impl s (close_impl src magic).1 magic vpass).1 := by
  obtain ⟨r, hd, hroot, hhead, hrv, hdv, hmem, hnd, hnr, hmax⟩ := hinv
  have hrr : rootFromHeader r.toHeaderState = r := by
    unfold rootFromHeader BlockState.toHeaderState
    rw [← hrv]
  rw [close_file_eq magic hroot hhead]
  unfold open_impl
  dsimp only
  rw [if_neg (by simp), if_neg (by decide)]
  rw [hrr]
  have hperm := close_blocks_perm src.index
  set blocks := close_merge (((by_lib_list src.index).filter (fun n => n.valid)).reverse) (((by_lib_list src.index).filter (fun n => !n.valid)).reverse) with hblocks
  have hinv₀ : Inv ({ root := some r, head := some r, index := [] } : ForkDB) :=
    ⟨r, r, rfl, rfl, hrv, hrv, Or.inl rfl, List.nodup_nil,
      fun n hn => absurd hn (List.not_mem_nil n),
      fun n hn => absurd hn (List.not_mem_nil n)⟩
  have hguard : ∀ n ∈ blocks, n.id ≠ r.id := fun n hn => hnr n (hperm.mem_iff.mp hn)
  obtain ⟨hinv₁, hroot₁⟩ := inv_add_loop vpass blocks
    { root := some r, head := some r, index := [] } r rfl hguard hinv₀
  cases hal : add_loop { root := some r, head := some r, index := [] } vpass blocks with
  | mk s₁ e₁ =>
    rw [hal] at hinv₁ hroot₁
    dsimp only at hinv₁ hroot₁
    cases e₁ with
    | some e => exact hinv₁
    | none =>
      dsimp only
      obtain ⟨hr₁, hi₁⟩ := add_loop_index hal
      have hnd₁ : IdsNodup s₁.index := by
        rw [hi₁]
        unfold IdsNodup at hnd ⊢
        simpa using (List.Perm.nodup_iff (hperm.map (fun x => x.id))).mpr hnd
      have hres : (if r.id = hd.id then some r else get_block_impl s₁ hd.id) = some hd := by
        rcases hmem with hh | hh
        · rw [if_pos (by rw [hh]), hh]
        · rw [if_neg (fun hcon => hnr hd hh hcon.symm)]
          have hmem2 : hd ∈ s₁.index := by
            rw [hi₁]
            simpa using hperm.mem_iff.mpr hh
          exact get_block_of_mem hnd₁ hmem2
      rw [hres]
      dsimp only
      have hinv₂ : Inv { s₁ with head := some hd } := by
        refine ⟨r, hd, hroot₁, rfl, hrv, hdv, ?_, hnd₁, ?_, ?_⟩
        · rcases hmem with hh | hh
          · exact Or.inl hh
          · refine Or.inr ?_
            show hd ∈ s₁.index
            rw [hi₁]
            simpa using hperm.mem_iff.mpr hh
        · intro m hm
          refine hnr m ?_
          have hm' : m ∈ s₁.index := hm
          rw [hi₁] at hm'
          exact hperm.mem_iff.mp (by simpa using hm')
        · intro m hm hmv
          refine hmax m ?_ hmv
          have hm' : m ∈ s₁.index := hm
          rw [hi₁] at hm'
          exact hperm.mem_iff.mp (by simpa using hm')
      cases hby : by_lib_head s₁.index with
      | none =>
        dsimp only
        split
        · exact hinv₂
        · exact hinv₂
      | some c =>
        dsimp only
        split
        · split
          · exact hinv₂
          · exact hinv₂
        · split
          · exact hinv₂
          · exact hinv₂

/-- Working states reachable by operation sequences in which every added
block carries an id different from the current root's, as holds for
collision-free hash ids; the code never checks this, and the unrestricted
`Reachable` admits the counterexample below.  `close` is not a state
producer here: it clears the index while leaving `head` at the old tip
(see `close_breaks_head_root_invariant`), so a closed database is no
longer a working tree and only feeds the next `open`; the claim theorem
carries a separate conjunct for a trailing `close`. -/
inductive ReachableFresh : ForkDB → Prop where
  | reset (root_bhs : BlockHeaderState) : ReachableFresh (reset_impl root_bhs)
  | add (s : ForkDB) (n : BlockState) (ignore_duplicate : Bool) :
      ReachableFresh s → (∀ r, s.root = some r → n.id ≠ r.id) →
      ReachableFresh (fork_database_add s n ignore_duplicate).1
  | mark_valid (s : ForkDB) (h : BlockState) :
      ReachableFresh s → ReachableFresh (mark_valid_impl s h).1
  | rollback (s : ForkDB) : ReachableFresh s →
      ReachableFresh (rollback_head_to_root_impl s)
  | advance_root (s : ForkDB) (id : Nat) : ReachableFresh s →
      (advance_root_impl s id).2 ≠ some .fuel →
      ReachableFresh (advance_root_impl s id).1
  | remove (s : ForkDB) (id : Nat) : ReachableFresh s →
      (remove_impl s id).2 ≠ some .fuel → ReachableFresh (remove_impl s id).1
  | open_file (s src : ForkDB) (magic : Nat) (vpass : BlockState → Bool) :
      ReachableFresh s → ReachableFresh src →
      ReachableFresh (open_impl s (close_impl src magic).1 magic vpass).1

theorem reachable_fresh_inv {s : ForkDB} (h : ReachableFresh s) : Inv s := by
  induction h with
  | reset bhs => exact inv_reset bhs
  | add s n idup hrf hfresh ih => exact inv_add s n idup false (fun _ => true) ih hfresh
  | mark_valid s h _ ih => exact inv_mark_valid s h ih
  | rollback s _ ih => exact inv_rollback s ih
  | advance_root s id hrf hg ih => exact inv_advance_root s id ih hg
  | remove s id hrf hg ih => exact inv_remove s id ih
  | open_file s src magic vpass _ _ ih₁ ih₂ => exact inv_open src s magic vpass ih₂

/-! ### Claim C1 -/

/-- Claim C1 (amended): for every working state reachable by reset, add,
mark_valid, rollback_head_to_root, advance_root, remove and open whose
added blocks never reuse the current root's id (the code never checks ids
against the root, so this is an assumption on the inputs, sound for hash
ids), the head is set and valid, no valid index entry is strictly more
`first_preferred` than the head, and the head is the root whenever the
index holds no valid entry.  If such a sequence additionally ends with a
`close`, the closed state still has its head set and valid and — the
index now being empty — still no valid index entry beating it, but the
head-equals-root clause fails there: `close` clears the index and leaves
`head` at the old tip (`close_breaks_head_root_invariant`), which is why
`close` terminates a working sequence instead of continuing it.
Unrestricted reachability admits the counterexample below, so the claim
as stated over all operation sequences is refuted. -/
theorem reachable_head_invariant (s : ForkDB) (h : ReachableFresh s) :
    (∃ r hd, s.root = some r ∧ s.head = some hd ∧ hd.valid = true ∧
      (∀ n ∈ s.index, n.valid = true → first_preferred n hd = false) ∧
      ((∀ n ∈ s.index, n.valid = false) → hd = r)) ∧
    (∀ magic, ∃ r hd, (close_impl s magic).2.root = some r ∧
      (close_impl s magic).2.head = some hd ∧ hd.valid = true ∧
      (∀ n ∈ (close_impl s magic).2.index, n.valid = true →
        first_preferred n hd = false)) := by
  obtain ⟨r, hd, hroot, hhead, hrv, hdv, hmem, hnd, hnr, hmax⟩ := reachable_fresh_inv h
  constructor
  · refine ⟨r, hd, hroot, hhead, hdv, hmax, ?_⟩
    intro hall
    rcases hmem with hh | hh
    · exact hh
    · exact absurd (hall hd hh) (by rw [hdv]; simp)
  · intro magic
    refine ⟨r, hd, ?_, ?_, hdv, ?_⟩
    · show (close_impl s magic).2.root = some r
      unfold close_impl
      rw [hroot]
    · show (close_impl s magic).2.head = some hd
      unfold close_impl
      rw [hroot]
      dsimp only
      exact hhead
    · intro n hn
      exfalso
      unfold close_impl at hn
      rw [hroot] at hn
      dsimp only at hn
      exact List.not_mem_nil n hn

theorem reachable_head_invariant_witness :
    (∃ r hd, (reset_impl ⟨7, 3, 10, 2⟩).root = some r ∧
      (reset_impl ⟨7, 3, 10, 2⟩).head = some hd ∧ hd.valid = true ∧
      (∀ n ∈ (reset_impl ⟨7, 3, 10, 2⟩).index, n.valid = true →
        first_preferred n hd = false) ∧
      ((∀ n ∈ (reset_impl ⟨7, 3, 10, 2⟩).index, n.valid = false) → hd = r)) ∧
    (∃ r hd, (close_impl (reset_impl ⟨7, 3, 10, 2⟩) 0).2.root = some r ∧
      (close_impl (reset_impl ⟨7, 3, 10, 2⟩) 0).2.head = some hd ∧ hd.valid = true ∧
      (∀ n ∈ (close_impl (reset_impl ⟨7, 3, 10, 2⟩) 0).2.index, n.valid = true →
        first_preferred n hd = false)) :=
  ⟨(reachable_head_invariant _ (ReachableFresh.reset ⟨7, 3, 10, 2⟩)).1,
   (reachable_head_invariant _ (ReachableFresh.reset ⟨7, 3, 10, 2⟩)).2 0⟩

/-- The state after marking valid a block that reuses the root's id. -/
def cexS2 : ForkDB :=
  (mark_valid_impl (fork_database_add (reset_impl ⟨0, 99, 5, 0⟩)
    ⟨0, 0, 6, 0, false⟩ false).1 ⟨0, 0, 6, 0, false⟩).1

/-- The same tree after a close/open round trip: open resolves the stored
head id against the root first, so the head falls back to the root while
the better valid node stays in the index. -/
def cexS3 : ForkDB := (open_impl cexS2 (close_impl cexS2 0).1 0 (fun _ => true)).1

/-- Counterexample to claim C1 as stated: a reachable state (reset, add a
block reusing the root's id, mark_valid, close, open) whose head is valid
but beaten under `first_preferred` by a valid index entry. -/
theorem head_invariant_claim_counterexample :
    ∃ (s : ForkDB) (hd n : BlockState), Reachable s ∧ s.head = some hd ∧
      hd.valid = true ∧ n ∈ s.index ∧ n.valid = true ∧
      first_preferred n hd = true := by
  refine ⟨cexS3, ⟨0, 99, 5, 0, true⟩, ⟨0, 0, 6, 0, true⟩, ?_, by decide, rfl,
    by decide, rfl, by decide⟩
  have h2 : Reachable cexS2 :=
    Reachable.mark_valid _ ⟨0, 0, 6, 0, false⟩
      (Reachable.add _ ⟨0, 0, 6, 0, false⟩ false (Reachable.reset ⟨0, 99, 5, 0⟩))
  exact Reachable.open_file cexS2 cexS2 0 (fun _ => true) h2 h2

end ForkDb
